import Mathlib

/-!
# Real-time system monitor (`main.go`): shallow embedding and verified properties

The Go program samples host metrics once per tick, ranks the process list by
memory and by CPU, and draws bars and tables on a terminal surface.  This file
embeds the pure parts of `main.go` and proves (or refutes) the properties the
specification states about them.

Modelling conventions:
* a Go `string` is its byte sequence (`len` and slicing are byte operations);
* a function that can panic returns `Option`, `none` standing for the panic;
* a Go `int` is an unbounded integer: the coordinates and sizes the program
  computes stay far from the 64-bit limits, so no operation wraps around;
* `sort.Slice` (Go standard library) sorts the caller's backing array in place,
  so the ranking functions return the new contents of the caller's slice next
  to the returned view.
-/

namespace Monitor

/-! ## Strings -/

/-- One byte of a Go string. -/
abbrev Byte := Fin 256

/-- A Go string: an immutable byte sequence. -/
abbrev GoString := List Byte

/-- The bytes of an ASCII literal. -/
def ascii (s : String) : GoString := s.toList.map (fun c => Fin.ofNat c.toNat)

/-- The three-byte marker appended by `truncateString` (the literal of line 207). -/
def ellipsis : GoString := [46, 46, 46]

/-- Go slice expression `s[:hi]` on a string: panics unless `0 ≤ hi ≤ len(s)`. -/
def sliceTo (s : GoString) (hi : Int) : Option GoString :=
  if 0 ≤ hi ∧ hi ≤ (s.length : Int) then some (s.take hi.toNat) else none

/-- Source `truncateString` (main.go 203-208). -/
def truncateString (s : GoString) (length : Int) : Option GoString :=
  if (s.length : Int) ≤ length then
    some s
  else
    (sliceTo s (length - 3)).map (fun t => t ++ ellipsis)

example : truncateString (ascii "abcdefgh") 5 = some (ascii "ab...") := by decide
example : truncateString (ascii "abc") 5 = some (ascii "abc") := by decide
example : truncateString (ascii "abcd") 2 = none := by decide
example : truncateString (ascii "abcd") 3 = some (ascii "...") := by decide

/-! ## float64

`float64` values are modelled exactly: NaN, the two infinities, or a finite
dyadic number `m * 2^e`.  The two zeros are not distinguished (every zero the
program produces comes from an unsigned quantity, hence is `+0`).  Arithmetic
results are rounded to the nearest representable value, ties to even, as
IEEE-754 binary64 does. -/

/-- A `float64` value. `fin m e` denotes `m * 2^e`. -/
inductive F64
  | nan
  | inf (neg : Bool)
  | fin (m : Int) (e : Int)
deriving DecidableEq, Repr

namespace F64

/-- Number of binary digits of `n`, by halving (`fuel` bounds the recursion). -/
def bitLenAux : Nat → Nat → Nat
  | 0, _ => 0
  | fuel + 1, n => if n = 0 then 0 else bitLenAux fuel (n / 2) + 1

/-- Number of binary digits of `n` (`0` for `0`). -/
def bitLen (n : Nat) : Nat := bitLenAux n n

/-- Nearest integer to `N / D`, ties to even. -/
def divRoundEven (N D : Nat) : Nat :=
  let f := N / D
  let r := N % D
  if 2 * r < D then f else if D < 2 * r then f + 1 else if f % 2 = 0 then f else f + 1

/-- Round the positive rational `N / D * 2^e` to binary64 (53-bit significand,
unit in the last place never below `2^-1074`, overflow to infinity). -/
def roundRatio (neg : Bool) (N D : Nat) (e : Int) : F64 :=
  if N = 0 then fin 0 0 else
  -- scale the numerator so that the integer quotient has at least 53 bits
  let p := (bitLen D + 54) - bitLen N
  let N1 := N * 2 ^ p
  let e1 := e - (p : Int)
  -- drop the surplus bits, and more when the result is subnormal
  let s0 := bitLen (N1 / D) - 53
  let s := s0 + ((-1074 : Int) - (e1 + (s0 : Int))).toNat
  let m := divRoundEven N1 (D * 2 ^ s)
  let u := e1 + (s : Int)
  if 971 < u ∨ (u = 971 ∧ 2 ^ 53 ≤ m) then inf neg
  else fin (if neg then -(m : Int) else (m : Int)) u

/-- Conversion `float64(i)` of an integer. -/
def ofInt (i : Int) : F64 := roundRatio (decide (i < 0)) i.natAbs 1 0

/-- Float multiplication `a * b`. -/
def mul : F64 → F64 → F64
  | nan, _ => nan
  | _, nan => nan
  | inf n1, inf n2 => inf (n1 != n2)
  | inf n, fin m _ => if m = 0 then nan else inf (n != decide (m < 0))
  | fin m _, inf n => if m = 0 then nan else inf (n != decide (m < 0))
  | fin m1 e1, fin m2 e2 =>
      roundRatio (decide (m1 * m2 < 0)) (m1 * m2).natAbs 1 (e1 + e2)

/-- Float division `a / b` (a zero divisor is `+0`). -/
def div : F64 → F64 → F64
  | nan, _ => nan
  | _, nan => nan
  | inf _, inf _ => nan
  | inf n, fin m _ => inf (n != decide (m < 0))
  | fin _ _, inf _ => fin 0 0
  | fin m1 e1, fin m2 e2 =>
      if m2 = 0 then (if m1 = 0 then nan else inf (decide (m1 < 0)))
      else roundRatio (decide (m1 < 0) != decide (m2 < 0)) m1.natAbs m2.natAbs (e1 - e2)

/-- Float comparison `a > b`: false as soon as one side is NaN. -/
def gt : F64 → F64 → Bool
  | nan, _ => false
  | _, nan => false
  | inf n1, inf n2 => !n1 && n2
  | inf n, fin _ _ => !n
  | fin _ _, inf n => n
  | fin m1 e1, fin m2 e2 =>
      decide (m2 * 2 ^ (e2 - min e1 e2).toNat < m1 * 2 ^ (e1 - min e1 e2).toNat)

/-- Float comparison `a >= b`: false as soon as one side is NaN. -/
def ge : F64 → F64 → Bool
  | nan, _ => false
  | _, nan => false
  | a, b => !gt b a

/-- Predicate "is NaN". -/
def isNaN : F64 → Bool
  | nan => true
  | _ => false

/-- Truncation toward zero of a finite value. -/
def trunc (m e : Int) : Int :=
  if 0 ≤ e then m * 2 ^ e.toNat else Int.tdiv m (2 ^ (-e).toNat)

/-- Conversion `int(f)`.  Go leaves the result implementation-dependent when the
value does not fit; `bad` supplies the result of the platform in that case. -/
def toInt (bad : F64 → Int) : F64 → Int
  | fin m e =>
      if -(2 : Int) ^ 63 ≤ trunc m e ∧ trunc m e < (2 : Int) ^ 63 then trunc m e
      else bad (fin m e)
  | f => bad f

end F64

/-! ## Data model -/

/-- Source `ProcessInfo` (main.go 20-26). `PID` is an `int32`, `MemSize` a `uint64`. -/
structure ProcessInfo where
  PID : Int
  Name : GoString
  CPU : F64
  Memory : F64
  MemSize : Nat
deriving DecidableEq, Repr

/-- The part of gopsutil's `process.MemoryInfoStat` the program reads. -/
structure MemoryInfoStat where
  RSS : Nat
deriving DecidableEq, Repr

/-- What the metrics provider answers for one enumerated process: the program
discards every error, so a failed read shows as the zero value of its result,
and as a nil pointer (`none`) for `MemoryInfo`. -/
structure Process where
  Pid : Int
  name : GoString
  cpuPercent : F64
  memoryPercent : F64
  memoryInfo : Option MemoryInfoStat
deriving DecidableEq, Repr

/-- The part of gopsutil's `mem.VirtualMemoryStat` the program reads. -/
structure VirtualMemoryStat where
  Total : Nat
  Used : Nat
  Free : Nat
deriving DecidableEq, Repr

/-- The part of gopsutil's `net.IOCountersStat` the program reads. -/
structure IOCountersStat where
  BytesSent : Nat
  BytesRecv : Nat
  PacketsSent : Nat
  PacketsRecv : Nat
deriving DecidableEq, Repr

/-! ## Process enumeration -/

/-- One iteration of the loop of `getProcessInfo` (main.go 163-178): the sample
is appended only when `memInfo != nil`. -/
def getProcessInfoStep (processInfo : List ProcessInfo) (p : Process) : List ProcessInfo :=
  match p.memoryInfo with
  | some memInfo =>
      processInfo ++ [{ PID := p.Pid, Name := p.name, CPU := p.cpuPercent,
                        Memory := p.memoryPercent, MemSize := memInfo.RSS }]
  | none => processInfo

/-- Source `getProcessInfo` (main.go 159-181), as a function of the enumeration
the provider returned. -/
def getProcessInfo (processes : List Process) : List ProcessInfo :=
  processes.foldl getProcessInfoStep []

/-! ## Ranking -/

/-- The behaviour of `sort.Slice` on a slice of `ProcessInfo`: from the `less`
function and the contents of the slice to its contents after the call.  The
`less` closures of the program compare the elements currently stored at two
indices, so `less` is given on elements. -/
abbrev SortSlice := (ProcessInfo → ProcessInfo → Bool) → List ProcessInfo → List ProcessInfo

/-- The `less` closure of `sortByMemory` (main.go 184-186). -/
def lessByMemory (pi pj : ProcessInfo) : Bool := decide (pi.MemSize > pj.MemSize)

/-- The `less` closure of `sortByCPU` (main.go 194-196). -/
def lessByCPU (pi pj : ProcessInfo) : Bool := F64.gt pi.CPU pj.CPU

/-- The reslicing `if len(processes) > 10 { processes = processes[:10] }`. -/
def top10 (processes : List ProcessInfo) : List ProcessInfo :=
  if processes.length > 10 then processes.take 10 else processes

/-- Source `sortByMemory` (main.go 183-191).  `sort.Slice` reorders the backing
array the caller's slice shares, so the result is the pair of the caller's
slice after the call and the returned view. -/
def sortByMemory (sortSlice : SortSlice) (processes : List ProcessInfo) :
    List ProcessInfo × List ProcessInfo :=
  let sorted := sortSlice lessByMemory processes
  (sorted, top10 sorted)

/-- Source `sortByCPU` (main.go 193-201), with the same result convention. -/
def sortByCPU (sortSlice : SortSlice) (processes : List ProcessInfo) :
    List ProcessInfo × List ProcessInfo :=
  let sorted := sortSlice lessByCPU processes
  (sorted, top10 sorted)

/-! ## The standard library's `sort.Slice`

`sort.Slice` is not part of the repository.  Its documented contract is
`SortSliceSpec` below; the algorithm the Go standard library runs since Go 1.19
(pattern-defeating quicksort, `sort/zsortfunc.go`) is modelled in `GoSort`, on a
list with index-based `Less` and `Swap` as in the library. -/

namespace GoSort

variable {α : Type}

/-- The hint `choosePivot_func` returns. -/
inductive sortedHint
  | unknownHint
  | increasingHint
  | decreasingHint
deriving DecidableEq, Repr

/-- Call `data.Less(i, j)`: compare the elements now at `i` and `j`. -/
def Less (lt : α → α → Bool) (data : List α) (i j : Nat) : Bool :=
  match data[i]?, data[j]? with
  | some x, some y => lt x y
  | _, _ => false

/-- Call `data.Swap(i, j)`. -/
def Swap (data : List α) (i j : Nat) : List α :=
  match data[i]?, data[j]? with
  | some x, some y => (data.set i y).set j x
  | _, _ => data

/-- Inner loop of `insertionSort_func`:
`for j := i; j > a && data.Less(j, j-1); j-- { data.Swap(j, j-1) }`. -/
def insertionInner (lt : α → α → Bool) (a : Nat) : Nat → List α → List α
  | 0, data => data
  | j + 1, data =>
      if a < j + 1 ∧ Less lt data (j + 1) j then
        insertionInner lt a j (Swap data (j + 1) j)
      else data

/-- Outer loop of `insertionSort_func`: `for i := a + 1; i < b; i++`, with the
number of remaining iterations as the recursion argument. -/
def insertionOuter (lt : α → α → Bool) (a : Nat) : Nat → Nat → List α → List α
  | 0, _, data => data
  | n + 1, i, data => insertionOuter lt a n (i + 1) (insertionInner lt a i data)

/-- Library `insertionSort_func(data, a, b)`. -/
def insertionSort_func (lt : α → α → Bool) (data : List α) (a b : Nat) : List α :=
  insertionOuter lt a (b - (a + 1)) (a + 1) data

/-- Library `siftDown_func(data, lo, hi, first)`, the loop run from `root`. -/
def siftDown_func (lt : α → α → Bool) (hi first : Nat) : Nat → List α → Nat → List α
  | 0, data, _ => data
  | fuel + 1, data, root =>
      let child := 2 * root + 1
      if child ≥ hi then data
      else
        let child :=
          if child + 1 < hi ∧ Less lt data (first + child) (first + child + 1) then child + 1
          else child
        if !Less lt data (first + root) (first + child) then data
        else siftDown_func lt hi first fuel (Swap data (first + root) (first + child)) child

/-- First loop of `heapSort_func`: `for i := (hi - 1) / 2; i >= 0; i--`. -/
def heapBuild (lt : α → α → Bool) (hi first : Nat) : Nat → List α → List α
  | 0, data => siftDown_func lt hi first hi data 0
  | i + 1, data => heapBuild lt hi first i (siftDown_func lt hi first hi data (i + 1))

/-- Second loop of `heapSort_func`: `for i := hi - 1; i >= 0; i--`. -/
def heapPop (lt : α → α → Bool) (first : Nat) : Nat → List α → List α
  | 0, data => siftDown_func lt 0 first 0 (Swap data first first) 0
  | i + 1, data =>
      heapPop lt first i (siftDown_func lt (i + 1) first (i + 1) (Swap data first (first + (i + 1))) 0)

/-- Library `heapSort_func(data, a, b)`. -/
def heapSort_func (lt : α → α → Bool) (data : List α) (a b : Nat) : List α :=
  let first := a
  let hi := b - a
  if hi = 0 then data
  else heapPop lt first (hi - 1) (heapBuild lt hi first ((hi - 1) / 2) data)

/-- Library `order2_func`: the two indices in order, and the swap counter. -/
def order2_func (lt : α → α → Bool) (data : List α) (a b swaps : Nat) : Nat × Nat × Nat :=
  if Less lt data b a then (b, a, swaps + 1) else (a, b, swaps)

/-- Library `median_func`: index of the median of three, and the swap counter. -/
def median_func (lt : α → α → Bool) (data : List α) (a b c swaps : Nat) : Nat × Nat :=
  let (a, b, swaps) := order2_func lt data a b swaps
  let (b, _, swaps) := order2_func lt data b c swaps
  let (_, b, swaps) := order2_func lt data a b swaps
  (b, swaps)

/-- Library `medianAdjacent_func`. -/
def medianAdjacent_func (lt : α → α → Bool) (data : List α) (a swaps : Nat) : Nat × Nat :=
  median_func lt data (a - 1) a (a + 1) swaps

/-- Library `choosePivot_func(data, a, b)`. -/
def choosePivot_func (lt : α → α → Bool) (data : List α) (a b : Nat) : Nat × sortedHint :=
  let l := b - a
  let i := a + l / 4 * 1
  let j := a + l / 4 * 2
  let k := a + l / 4 * 3
  let (j, swaps) :=
    if l ≥ 8 then
      if l ≥ 50 then
        let (i, swaps) := medianAdjacent_func lt data i 0
        let (j, swaps) := medianAdjacent_func lt data j swaps
        let (k, swaps) := medianAdjacent_func lt data k swaps
        median_func lt data i j k swaps
      else median_func lt data i j k 0
    else (j, 0)
  if swaps = 0 then (j, sortedHint.increasingHint)
  else if swaps = 12 then (j, sortedHint.decreasingHint)
  else (j, sortedHint.unknownHint)

/-- Library `reverseRange_func(data, a, b)`, the loop from `i`, `j`. -/
def reverseLoop : Nat → List α → Nat → Nat → List α
  | 0, data, _, _ => data
  | fuel + 1, data, i, j =>
      if i < j then reverseLoop fuel (Swap data i j) (i + 1) (j - 1) else data

/-- Library `reverseRange_func(data, a, b)`. -/
def reverseRange_func (data : List α) (a b : Nat) : List α :=
  if b = 0 then data else reverseLoop (b - a) data a (b - 1)

/-- A loop `for p(i) { i++ }`, returning the final `i`. -/
def scanUp (p : Nat → Bool) : Nat → Nat → Nat
  | 0, i => i
  | fuel + 1, i => if p i then scanUp p fuel (i + 1) else i

/-- A loop `for p(j) { j-- }`, returning the final `j`. -/
def scanDown (p : Nat → Bool) : Nat → Nat → Nat
  | 0, j => j
  | fuel + 1, j => if p j then scanDown p fuel (j - 1) else j

/-- The `for { ... }` loop of `partition_func`, returning the data and `j`. -/
def partitionLoop (lt : α → α → Bool) (a : Nat) : Nat → List α → Nat → Nat → List α × Nat
  | 0, data, _, j => (data, j)
  | fuel + 1, data, i, j =>
      let i := scanUp (fun i => decide (i ≤ j) && Less lt data i a) data.length i
      let j := scanDown (fun j => decide (i ≤ j) && !Less lt data j a) data.length j
      if i > j then (data, j)
      else partitionLoop lt a fuel (Swap data i j) (i + 1) (j - 1)

/-- Library `partition_func(data, a, b, pivot)`: the data, the new pivot index
and `alreadyPartitioned`. -/
def partition_func (lt : α → α → Bool) (data : List α) (a b pivot : Nat) :
    List α × Nat × Bool :=
  let data := Swap data a pivot
  let i := a + 1
  let j := b - 1
  let i := scanUp (fun i => decide (i ≤ j) && Less lt data i a) data.length i
  let j := scanDown (fun j => decide (i ≤ j) && !Less lt data j a) data.length j
  if i > j then (Swap data j a, j, true)
  else
    let data := Swap data i j
    let (data, j) := partitionLoop lt a data.length data (i + 1) (j - 1)
    (Swap data j a, j, false)

/-- The `for { ... }` loop of `partitionEqual_func`, returning the data and `i`. -/
def partitionEqualLoop (lt : α → α → Bool) (a : Nat) :
    Nat → List α → Nat → Nat → List α × Nat
  | 0, data, i, _ => (data, i)
  | fuel + 1, data, i, j =>
      let i := scanUp (fun i => decide (i ≤ j) && !Less lt data a i) data.length i
      let j := scanDown (fun j => decide (i ≤ j) && Less lt data a j) data.length j
      if i > j then (data, i)
      else partitionEqualLoop lt a fuel (Swap data i j) (i + 1) (j - 1)

/-- Library `partitionEqual_func(data, a, b, pivot)`. -/
def partitionEqual_func (lt : α → α → Bool) (data : List α) (a b pivot : Nat) : List α × Nat :=
  let data := Swap data a pivot
  partitionEqualLoop lt a data.length data (a + 1) (b - 1)

/-- In `partialInsertionSort_func`:
`for j := i - 1; j >= 1; j-- { if !data.Less(j, j-1) { break }; data.Swap(j, j-1) }`. -/
def shiftSmaller (lt : α → α → Bool) : Nat → List α → List α
  | 0, data => data
  | j + 1, data =>
      if !Less lt data (j + 1) j then data else shiftSmaller lt j (Swap data (j + 1) j)

/-- In `partialInsertionSort_func`:
`for j := i + 1; j < b; j++ { if !data.Less(j, j-1) { break }; data.Swap(j, j-1) }`. -/
def shiftGreater (lt : α → α → Bool) (b : Nat) : Nat → List α → Nat → List α
  | 0, data, _ => data
  | fuel + 1, data, j =>
      if j < b then
        if !Less lt data j (j - 1) then data
        else shiftGreater lt b fuel (Swap data j (j - 1)) (j + 1)
      else data

/-- The loop `for j := 0; j < maxSteps; j++` of `partialInsertionSort_func`. -/
def partialLoop (lt : α → α → Bool) (a b : Nat) : Nat → List α → Nat → List α × Bool
  | 0, data, _ => (data, false)
  | steps + 1, data, i =>
      let i := scanUp (fun i => decide (i < b) && !Less lt data i (i - 1)) data.length i
      if i = b then (data, true)
      else if b - a < 50 then (data, false)
      else
        let data := Swap data i (i - 1)
        let data := if i - a ≥ 2 then shiftSmaller lt (i - 1) data else data
        let data := if b - i ≥ 2 then shiftGreater lt b data.length data (i + 1) else data
        partialLoop lt a b steps data i

/-- Library `partialInsertionSort_func(data, a, b)` (`maxSteps = 5`,
`shortestShifting = 50`). -/
def partialInsertionSort_func (lt : α → α → Bool) (data : List α) (a b : Nat) :
    List α × Bool :=
  partialLoop lt a b 5 data (a + 1)

/-- Library `bits.Len`. -/
def bitsLen (n : Nat) : Nat := F64.bitLen n

/-- Library `(*xorshift).Next`, on a `uint64` state. -/
def xorshiftNext (r : Nat) : Nat :=
  let r := r ^^^ ((r <<< 13) % 2 ^ 64)
  let r := r ^^^ (r >>> 7)
  r ^^^ ((r <<< 17) % 2 ^ 64)

/-- The loop `for i := 0; i < 3; i++` of `breakPatterns_func`: the three elements
around the middle, at `idx`, `idx + 1`, `idx + 2` (`idx` is one below the
middle), are swapped with pseudo-random ones. -/
def breakLoop (a length modulus idx : Nat) : Nat → Nat → Nat → List α → List α
  | 0, _, _, data => data
  | n + 1, i, random, data =>
      let random := xorshiftNext random
      let other := random &&& (modulus - 1)
      let other := if other ≥ length then other - length else other
      breakLoop a length modulus idx n (i + 1) random (Swap data (idx + i) (a + other))

/-- Library `breakPatterns_func(data, a, b)`. -/
def breakPatterns_func (data : List α) (a b : Nat) : List α :=
  let length := b - a
  if length ≥ 8 then
    breakLoop a length (2 ^ bitsLen length) (a + (length / 4) * 2 - 1) 3 0 length data
  else data

/-- Library `pdqsort_func(data, a, b, limit)` (`maxInsertion = 12`).  The two
flags are the loop's local variables, `true` on entry; each recursion step or
loop iteration works on a strictly shorter range, so `fuel` above the length
of the range is never exhausted. -/
def pdqsort_func (lt : α → α → Bool) :
    Nat → List α → Nat → Nat → Nat → Bool → Bool → List α
  | 0, data, _, _, _, _, _ => data
  | fuel + 1, data, a, b, limit, wasBalanced, wasPartitioned =>
      let length := b - a
      if length ≤ 12 then insertionSort_func lt data a b
      else if limit = 0 then heapSort_func lt data a b
      else
        let data := if !wasBalanced then breakPatterns_func data a b else data
        let limit := if !wasBalanced then limit - 1 else limit
        let (pivot, hint) := choosePivot_func lt data a b
        let data :=
          if hint = sortedHint.decreasingHint then reverseRange_func data a b else data
        let pivot := if hint = sortedHint.decreasingHint then (b - 1) - (pivot - a) else pivot
        let hint :=
          if hint = sortedHint.decreasingHint then sortedHint.increasingHint else hint
        let (data, done) :=
          if wasBalanced && wasPartitioned && hint = sortedHint.increasingHint then
            partialInsertionSort_func lt data a b
          else (data, false)
        if done then data
        else if a > 0 ∧ !Less lt data (a - 1) pivot then
          let (data, mid) := partitionEqual_func lt data a b pivot
          pdqsort_func lt fuel data mid b limit wasBalanced wasPartitioned
        else
          let (data, mid, alreadyPartitioned) := partition_func lt data a b pivot
          let leftLen := mid - a
          let rightLen := b - mid
          let balanceThreshold := length / 8
          if leftLen < rightLen then
            let data := pdqsort_func lt fuel data a mid limit true true
            pdqsort_func lt fuel data (mid + 1) b limit
              (decide (leftLen ≥ balanceThreshold)) alreadyPartitioned
          else
            let data := pdqsort_func lt fuel data (mid + 1) b limit true true
            pdqsort_func lt fuel data a mid limit
              (decide (rightLen ≥ balanceThreshold)) alreadyPartitioned

/-- Library `sort.Slice(x, less)`:
`pdqsort_func(lessSwap{less, swap}, 0, length, bits.Len(uint(length)))`. -/
def Slice (lt : α → α → Bool) (data : List α) : List α :=
  pdqsort_func lt (data.length + 1) data 0 data.length (bitsLen data.length) true true

end GoSort

/-- The standard library's `sort.Slice` (Go 1.19 and later) on process samples. -/
def goSortSlice : SortSlice := fun less processes => GoSort.Slice less processes

/-- The library's insertion sort run on the whole slice (what `sort.Slice` does
on a slice of at most 12 elements). -/
def insertionSortSlice : SortSlice :=
  fun less processes => GoSort.insertionSort_func less processes 0 processes.length

/-- The two ranked views of one tick (main.go 112-115): `sortByMemory` runs
first, on the slice `processes`; `sortByCPU` then receives the same slice, whose
backing array `sortByMemory` has reordered.  The by-memory view is drawn before
`sortByCPU` runs. -/
def rankedViews (sortSlice : SortSlice) (processes : List ProcessInfo) :
    List ProcessInfo × List ProcessInfo :=
  let byMemory := sortByMemory sortSlice processes
  let byCPU := sortByCPU sortSlice byMemory.1
  (byMemory.2, byCPU.2)

/-- The requirement `sort.Slice` puts on `less` (that of `sort.Interface`): a
transitive ordering, in which "neither sorts before the other" is transitive
too; stated on the elements of the slice. -/
structure LessOrdering (less : ProcessInfo → ProcessInfo → Bool) (xs : List ProcessInfo) :
    Prop where
  irrefl : ∀ a ∈ xs, less a a = false
  trans : ∀ a ∈ xs, ∀ b ∈ xs, ∀ c ∈ xs, less a b = true → less b c = true → less a c = true
  negTrans : ∀ a ∈ xs, ∀ b ∈ xs, ∀ c ∈ xs,
    less a b = false → less b c = false → less a c = false

/-- The documented contract of `sort.Slice`: the slice is rearranged (only
`Swap` touches it), and when `less` is an ordering as required no element
sorts before an earlier one afterwards.  Nothing is promised on the order of
equal elements ("The sort is not guaranteed to be stable"). -/
structure SortSliceSpec (sortSlice : SortSlice) : Prop where
  perm : ∀ less xs, (sortSlice less xs).Perm xs
  sorted : ∀ less xs, LessOrdering less xs →
    (sortSlice less xs).Pairwise (fun a b => less b a = false)

/-! ## Drawing

The terminal surface is modelled by the sequence of calls made on it.  A call
of `drawText` is recorded as one operation (its expansion into one cell per
rune plays no part below).  `fmt.Sprintf` with a float verb is supplied from
outside through `Sprintf`. -/

/-- The colours the program uses. -/
inductive Color
  | black
  | white
  | yellow
  | green
  | darkGray
deriving DecidableEq, Repr

/-- The `tcell.Style` values the program builds from `tcell.StyleDefault`. -/
inductive Style
  | default
  | foreground (c : Color)
  | background (c : Color)
deriving DecidableEq, Repr

/-- One call on the screen. -/
inductive DrawOp
  | clear
  | setContent (x y : Int) (r : Char) (style : Style)
  | drawText (x y : Int) (text : GoString) (style : Style)
  | showScreen
deriving DecidableEq, Repr

/-- The results of the `fmt.Sprintf` calls that format floats. -/
structure Sprintf where
  /-- Format `"Total: %.2fGB Used: %.2fGB Free: %.2fGB (%.1f%%)"` (main.go 95). -/
  memStats : F64 → F64 → F64 → F64 → GoString
  /-- Format `"Usage: %.1f%%"` (main.go 103). -/
  cpuStats : F64 → GoString
  /-- Format `"Network - Received: %.2fMB (%d pkts) Sent: %.2fMB (%d pkts)"` (main.go 105). -/
  netStats : F64 → Nat → F64 → Nat → GoString
  /-- Format `"%-6d %-20s %-10.1f %-10.1f"` (main.go 153). -/
  row : Int → GoString → F64 → F64 → GoString

/-- Verb `%-Ns` on an ASCII string: pad with spaces on the right to `n` bytes. -/
def padRight (s : GoString) (n : Nat) : GoString :=
  s ++ List.replicate (n - s.length) 32

/-- The header line `fmt.Sprintf("%-6s %-20s %-10s %-10s", "PID", "Name", "CPU%", "Memory")`. -/
def tableHeader : GoString :=
  padRight (ascii "PID") 6 ++ ascii " " ++ padRight (ascii "Name") 20 ++ ascii " " ++
    padRight (ascii "CPU%") 10 ++ ascii " " ++ padRight (ascii "Memory") 10

/-- The constant `100` of `drawBar`, as a `float64`. -/
def hundred : F64 := F64.fin 100 0

/-- The value of `filled` in `drawBar`: `int(float64(barWidth) * value / 100)` (main.go 122). -/
def barFilled (bad : F64 → Int) (barWidth : Int) (value : F64) : Int :=
  F64.toInt bad (F64.div (F64.mul (F64.ofInt barWidth) value) hundred)

/-- One iteration of the loop of `drawBar` (main.go 128-133). -/
def barCell (x y filled : Int) (i : Nat) : DrawOp :=
  DrawOp.setContent (x + 1 + i) (y + 1) ' '
    (if (i : Int) < filled then Style.background Color.green
     else Style.background Color.darkGray)

/-- The loop `for i := 0; i < barWidth; i++` of `drawBar`. -/
def barCells (x y barWidth filled : Int) : List DrawOp :=
  (List.range barWidth.toNat).map (barCell x y filled)

/-- Source `drawBar` (main.go 120-136). -/
def drawBar (bad : F64 → Int) (x y width : Int) (label : GoString) (value : F64)
    (stats : GoString) : List DrawOp :=
  let barWidth := width - 2
  let filled := barFilled bad barWidth value
  [DrawOp.drawText x y (label ++ ascii ": " ++ stats) (Style.foreground Color.yellow),
   DrawOp.setContent x (y + 1) '[' Style.default] ++
  barCells x y barWidth filled ++
  [DrawOp.setContent (x + barWidth + 1) (y + 1) ']' Style.default]

/-- The loop of `drawProcessTable` (main.go 149-156) from index `i` on.  `none`
is a panic of `truncateString`. -/
def tableRows (fmt : Sprintf) (x y height : Int) : Nat → List ProcessInfo → Option (List DrawOp)
  | _, [] => some []
  | i, p :: rest =>
      if (i : Int) ≥ height - 3 then some []
      else
        match truncateString p.Name 20 with
        | none => none
        | some name =>
            match tableRows fmt x y height (i + 1) rest with
            | none => none
            | some ops =>
                some (DrawOp.drawText x (y + 2 + i) (fmt.row p.PID name p.CPU p.Memory)
                        Style.default :: ops)

/-- Source `drawProcessTable` (main.go 144-157); `width` is not used by the source. -/
def drawProcessTable (fmt : Sprintf) (x y _width height : Int) (title : GoString)
    (processes : List ProcessInfo) : Option (List DrawOp) :=
  match tableRows fmt x y height 0 processes with
  | none => none
  | some rows =>
      some (DrawOp.drawText x y title (Style.foreground Color.yellow) ::
            DrawOp.drawText x (y + 1) tableHeader (Style.foreground Color.green) :: rows)

/-- Conversion `float64(n)` of an unsigned quantity. -/
def ofUint (n : Nat) : F64 := F64.ofInt n

/-- The constant `1024`, as a `float64`. -/
def kib : F64 := F64.fin 1024 0

/-- Source `updateScreen` (main.go 85-118), as a function of the screen size
and of what the metrics provider returned in this tick: `v` is `nil` (`none`)
and `c`, `n` are empty when the read failed.  `none` is a run-time panic (nil
pointer dereference at `v.Used`, index out of range at `c[0]` and `n[0]`). -/
def updateScreen (sortSlice : SortSlice) (fmt : Sprintf) (bad : F64 → Int)
    (width height : Int) (v : Option VirtualMemoryStat) (c : List F64)
    (n : List IOCountersStat) (procs : List Process) : Option (List DrawOp) :=
  match v with
  | none => none
  | some v =>
    let memUsed := F64.mul (F64.div (ofUint v.Used) (ofUint v.Total)) hundred
    let gb := fun (x : Nat) => F64.div (F64.div (F64.div (ofUint x) kib) kib) kib
    let memBar := drawBar bad 1 1 (width - 2) (ascii "Memory") memUsed
      (fmt.memStats (gb v.Total) (gb v.Used) (gb v.Free) memUsed)
    match c.get? 0 with
    | none => none
    | some cpuUsed =>
      let cpuBar := drawBar bad 1 3 (width - 2) (ascii "CPU") cpuUsed (fmt.cpuStats cpuUsed)
      match n.get? 0 with
      | none => none
      | some n0 =>
        let mb := fun (x : Nat) => F64.div (F64.div (ofUint x) kib) kib
        let netStats := fmt.netStats (mb n0.BytesRecv) n0.PacketsRecv (mb n0.BytesSent) n0.PacketsSent
        let processes := getProcessInfo procs
        let views := rankedViews sortSlice processes
        match drawProcessTable fmt 1 7 (Int.tdiv width 2 - 1) (height - 7)
            (ascii "Top Memory Usage") views.1 with
        | none => none
        | some memTable =>
          match drawProcessTable fmt (Int.tdiv width 2 + 1) 7 (Int.tdiv width 2 - 2) (height - 7)
              (ascii "Top CPU Usage") views.2 with
          | none => none
          | some cpuTable =>
            some ([DrawOp.clear] ++ memBar ++ cpuBar ++
                  [DrawOp.drawText 1 5 netStats (Style.foreground Color.green)] ++
                  memTable ++ cpuTable ++ [DrawOp.showScreen])

/-! ## Notions used to state the properties -/

/-- The length of the filled segment of a bar: the number of cells written with
the filled style (green background). -/
def filledLength (ops : List DrawOp) : Nat :=
  ops.countP (fun op =>
    match op with
    | DrawOp.setContent _ _ _ (Style.background Color.green) => true
    | _ => false)

/-- The bar fill law in the specification's words: `floor(w * v / 100)` in exact
arithmetic, for a finite value `v = m * 2^e`. -/
def fillLawExact (w : Int) : F64 → Option Int
  | F64.fin m e =>
      if 0 ≤ e then some (w * m * 2 ^ e.toNat / 100)
      else some (w * m / (100 * 2 ^ (-e).toNat))
  | _ => none

/-- The result of `int(f)` on amd64 when `f` does not fit: the smallest `int64`. -/
def intIndefinite : F64 → Int := fun _ => -(2 : Int) ^ 63

/-- A `Sprintf` whose results are empty, for evaluating the drawing code. -/
def blankSprintf : Sprintf :=
  { memStats := fun _ _ _ _ => [], cpuStats := fun _ => [],
    netStats := fun _ _ _ _ => [], row := fun _ _ _ _ => [] }

/-- The sample `getProcessInfo` builds from a process and its memory record. -/
def sampleOf (p : Process) (memInfo : MemoryInfoStat) : ProcessInfo :=
  { PID := p.Pid, Name := p.name, CPU := p.cpuPercent, Memory := p.memoryPercent,
    MemSize := memInfo.RSS }

/-- A process sample with the given identifier, CPU percentage and resident size. -/
def sample (pid : Int) (cpu : F64) (memSize : Nat) : ProcessInfo :=
  { PID := pid, Name := [], CPU := cpu, Memory := F64.fin 0 0, MemSize := memSize }

/-- One pass of the inner loop of the library's insertion sort, as a function:
`x` moves left past the elements it sorts before.  The prefix is given last
element first. -/
def insertRev {α : Type} (lt : α → α → Bool) (x : α) : List α → List α
  | [] => [x]
  | y :: r => if lt x y then y :: insertRev lt x r else x :: y :: r

/-- The library's insertion sort as a fold of `insertRev`, last element first. -/
def insertAllRev {α : Type} (lt : α → α → Bool) (racc : List α) (xs : List α) : List α :=
  xs.foldl (fun racc x => insertRev lt x racc) racc

/-- The rational value of the finite `float64` `m * 2^e`. -/
def F64.val (m e : Int) : ℚ := (m : ℚ) * (2 : ℚ) ^ e

/-- The position of a `float64` in the order of the extended rationals (NaN, which
has no position, is sent to the bottom). -/
def F64.key : F64 → WithBot (WithTop ℚ)
  | F64.nan => ⊥
  | F64.inf true => ⊥
  | F64.inf false => ((⊤ : WithTop ℚ) : WithBot (WithTop ℚ))
  | F64.fin m e => ((F64.val m e : WithTop ℚ) : WithBot (WithTop ℚ))

/-- Float comparison `a == b`: false as soon as one side is NaN. -/
def F64.eq (a b : F64) : Bool :=
  !a.isNaN && !b.isNaN && !F64.gt a b && !F64.gt b a

/-- A ranking keeps the input order within the class of samples selected by `p`:
the selected entries of the view are the first selected entries of the input,
in input order. -/
def KeepsOrder (p : ProcessInfo → Bool) (input view : List ProcessInfo) : Prop :=
  view.filter p <+: input.filter p

/-- The tie scenario of the specification: 15 samples, those with identifiers 1,
2, 3 (in this input order) of resident size 1000, the twelve others smaller. -/
def tieScenario : List ProcessInfo :=
  [sample 4 (F64.fin 0 0) 1, sample 5 (F64.fin 0 0) 2, sample 6 (F64.fin 0 0) 3,
   sample 7 (F64.fin 0 0) 4, sample 8 (F64.fin 0 0) 5, sample 9 (F64.fin 0 0) 6,
   sample 10 (F64.fin 0 0) 7, sample 11 (F64.fin 0 0) 8, sample 12 (F64.fin 0 0) 9,
   sample 13 (F64.fin 0 0) 10, sample 14 (F64.fin 0 0) 11, sample 15 (F64.fin 0 0) 12,
   sample 1 (F64.fin 0 0) 1000, sample 2 (F64.fin 0 0) 1000, sample 3 (F64.fin 0 0) 1000]

/-! ## Truncation -/

theorem truncateString_short (s : GoString) (length : Int) (h : (s.length : Int) ≤ length) :
    truncateString s length = some s := by
  simp [truncateString, h]

theorem truncateString_long (s : GoString) (length : Int) (h : length < (s.length : Int))
    (h3 : 3 ≤ length) :
    truncateString s length = some (s.take (length - 3).toNat ++ ellipsis) := by
  have h1 : ¬ ((s.length : Int) ≤ length) := by omega
  have h2 : 0 ≤ length - 3 ∧ length - 3 ≤ (s.length : Int) := by omega
  simp [truncateString, sliceTo, h1, h2]

theorem truncateString_panics (s : GoString) (length : Int) (h : length < (s.length : Int))
    (h3 : length < 3) : truncateString s length = none := by
  have h1 : ¬ ((s.length : Int) ≤ length) := by omega
  have h2 : ¬ (0 ≤ length - 3 ∧ length - 3 ≤ (s.length : Int)) := by omega
  rw [truncateString, if_neg h1, sliceTo, if_neg h2]
  rfl

theorem length_take_add_ellipsis (s : GoString) (length : Int) (h : length < (s.length : Int))
    (h3 : 3 ≤ length) : ((s.take (length - 3).toNat ++ ellipsis).length : Int) = length := by
  have h4 : (length - 3).toNat ≤ s.length := by omega
  simp [ellipsis, List.length_take, Nat.min_eq_left h4]
  omega

/-- C5 (as amended). For every name `s` and width at least 4, `truncateString`
returns a string `t`: when `s` is longer than the width, `t` is the first
`width - 3` bytes of `s` followed by `"..."`, of length exactly the width; when
`s` is not longer, `t` is `s` unchanged.  Hence `t` has length exactly the width
and ends with `"..."` iff `s` is longer than the width or `s` itself has
exactly that length and ends with `"..."`. -/
theorem truncateString_law (s : GoString) (width : Int) (hw : 4 ≤ width) :
    ∃ t, truncateString s width = some t ∧
      (width < (s.length : Int) →
        t = s.take (width - 3).toNat ++ ellipsis ∧ (t.length : Int) = width ∧ ellipsis <:+ t) ∧
      ((s.length : Int) ≤ width → t = s) ∧
      (((t.length : Int) = width ∧ ellipsis <:+ t) ↔
        (width < (s.length : Int) ∨ ((s.length : Int) = width ∧ ellipsis <:+ s))) := by
  by_cases h : (s.length : Int) ≤ width
  · refine ⟨s, truncateString_short s width h, ?_, fun _ => rfl, ?_⟩
    · intro h'; omega
    · constructor
      · rintro ⟨h1, h2⟩; exact Or.inr ⟨h1, h2⟩
      · rintro (h1 | ⟨h1, h2⟩)
        · omega
        · exact ⟨h1, h2⟩
  · have h' : width < (s.length : Int) := by omega
    have hlen := length_take_add_ellipsis s width h' (by omega)
    have hsuf : ellipsis <:+ s.take (width - 3).toNat ++ ellipsis := List.suffix_append _ _
    refine ⟨_, truncateString_long s width h' (by omega), fun _ => ⟨rfl, hlen, hsuf⟩, ?_, ?_⟩
    · intro h''; omega
    · exact ⟨fun _ => Or.inl h', fun _ => ⟨hlen, hsuf⟩⟩

/-- Witness of `truncateString_law` at the name `"abcdefgh"` and width 5. -/
theorem truncateString_law_witness :
    (4 : Int) ≤ 5 ∧ truncateString (ascii "abcdefgh") 5 = some (ascii "ab...") := by
  refine ⟨by decide, ?_⟩
  obtain ⟨t, ht, h1, _, _⟩ := truncateString_law (ascii "abcdefgh") 5 (by decide)
  rw [ht, (h1 (by decide)).1]
  decide

/-- C5 (as stated) fails at the name `"a..."` and width 4: the output has length
exactly 4 and ends with `"..."`, yet the name is not longer than the width. -/
theorem truncateString_iff_counterexample :
    truncateString (ascii "a...") 4 = some (ascii "a...") ∧
      (((ascii "a...").length : Int) = 4 ∧ ellipsis <:+ ascii "a...") ∧
      ¬ ((4 : Int) < ((ascii "a...").length : Int)) := by
  refine ⟨by decide, ⟨by decide, ⟨ascii "a", by decide⟩⟩, by decide⟩

/-- C9 (as amended). For every name `s` and width in 0..3: a name not longer
than the width is returned unchanged; at width 3 a longer name gives `"..."`;
at widths 0..2 a longer name makes the slice bound `width - 3` negative and the
call panics.  Whenever a string is returned its length is at most the width. -/
theorem truncateString_degenerate (s : GoString) (width : Int) (h0 : 0 ≤ width)
    (h3 : width ≤ 3) :
    ((s.length : Int) ≤ width → truncateString s width = some s) ∧
    (width = 3 → width < (s.length : Int) → truncateString s width = some ellipsis) ∧
    (width < 3 → width < (s.length : Int) → truncateString s width = none) ∧
    (∀ t, truncateString s width = some t → (t.length : Int) ≤ width) := by
  refine ⟨truncateString_short s width, ?_, fun h h' => truncateString_panics s width h' h, ?_⟩
  · intro h h'
    subst h
    rw [truncateString_long s 3 h' (by decide)]
    simp
  · intro t ht
    by_cases h : (s.length : Int) ≤ width
    · rw [truncateString_short s width h] at ht
      cases ht
      exact h
    · by_cases hw : width = 3
      · subst hw
        rw [truncateString_long s 3 (by omega) (by decide)] at ht
        cases ht
        simp [ellipsis]
      · rw [truncateString_panics s width (by omega) (by omega)] at ht
        cases ht

/-- Witness of `truncateString_degenerate` at the name `"abcd"` and width 2. -/
theorem truncateString_degenerate_witness :
    ((0 : Int) ≤ 2 ∧ (2 : Int) ≤ 3) ∧ truncateString (ascii "abcd") 2 = none :=
  ⟨by decide, (truncateString_degenerate (ascii "abcd") 2 (by decide) (by decide)).2.2.1
    (by decide) (by decide)⟩

/-- C9 (as stated) fails at the name `"abcd"` and width 2: the call panics. -/
theorem truncateString_underflow_counterexample :
    truncateString (ascii "abcd") 2 = none := by
  decide

/-! ## Process enumeration -/

theorem foldl_getProcessInfoStep (ps : List Process) (acc : List ProcessInfo) :
    ps.foldl getProcessInfoStep acc =
      acc ++ ps.filterMap (fun p => p.memoryInfo.map (sampleOf p)) := by
  induction ps generalizing acc with
  | nil => simp
  | cons p ps ih =>
    rw [List.foldl_cons, ih]
    cases h : p.memoryInfo <;> simp [getProcessInfoStep, h, List.filterMap_cons, sampleOf]

theorem length_filterMap_memoryInfo (ps : List Process) :
    (ps.filterMap (fun p => p.memoryInfo.map (sampleOf p))).length =
      ps.countP (fun p => p.memoryInfo.isSome) := by
  induction ps with
  | nil => rfl
  | cons p ps ih =>
    cases h : p.memoryInfo <;> simp [List.filterMap_cons, List.countP_cons, h, ih]

theorem countP_isSome_add_isNone (ps : List Process) :
    ps.countP (fun p => p.memoryInfo.isSome) + ps.countP (fun p => p.memoryInfo.isNone) =
      ps.length := by
  induction ps with
  | nil => rfl
  | cons p ps ih =>
    cases h : p.memoryInfo <;> simp [List.countP_cons, h] <;> omega

/-- C10. `getProcessInfo` returns, in enumeration order, exactly one sample for
each process whose memory-info read succeeded, with `MemSize` the RSS of that
read, and nothing for a process whose read failed; the number of samples is
the number of successful reads, so 15 processes with 2 failed reads give 13. -/
theorem getProcessInfo_drops_failed (processes : List Process) :
    getProcessInfo processes =
        processes.filterMap (fun p => p.memoryInfo.map (sampleOf p)) ∧
      (∀ p memInfo, (sampleOf p memInfo).MemSize = memInfo.RSS ∧ (sampleOf p memInfo).PID = p.Pid) ∧
      (getProcessInfo processes).length = processes.countP (fun p => p.memoryInfo.isSome) ∧
      (processes.length = 15 → processes.countP (fun p => p.memoryInfo.isNone) = 2 →
        (getProcessInfo processes).length = 13) := by
  have h1 : getProcessInfo processes =
      processes.filterMap (fun p => p.memoryInfo.map (sampleOf p)) := by
    simp [getProcessInfo, foldl_getProcessInfoStep]
  have h2 : (getProcessInfo processes).length =
      processes.countP (fun p => p.memoryInfo.isSome) := by
    rw [h1, length_filterMap_memoryInfo]
  refine ⟨h1, fun p memInfo => ⟨rfl, rfl⟩, h2, fun h15 hfail => ?_⟩
  have := countP_isSome_add_isNone processes
  omega

/-- Witness of `getProcessInfo_drops_failed`: 15 processes, the memory-info read
failing for the third and the ninth. -/
theorem getProcessInfo_drops_failed_witness :
    (getProcessInfo ((List.range 15).map (fun (i : Nat) =>
        ({ Pid := (i : Int), name := [], cpuPercent := F64.fin 0 0, memoryPercent := F64.fin 0 0,
           memoryInfo := if i = 2 ∨ i = 8 then none else some { RSS := 100 + i } } :
          Process)))).length = 13 :=
  (getProcessInfo_drops_failed _).2.2.2 (by decide) (by decide)

/-! ## Process table -/

theorem truncateString_twenty (s : GoString) : ∃ name, truncateString s 20 = some name := by
  by_cases h : (s.length : Int) ≤ 20
  · exact ⟨_, truncateString_short s 20 h⟩
  · exact ⟨_, truncateString_long s 20 (by omega) (by decide)⟩

theorem tableRows_spec (fmt : Sprintf) (x y height : Int) :
    ∀ (ps : List ProcessInfo) (i : Nat),
      ∃ rows, tableRows fmt x y height i ps = some rows ∧
        rows.length = min ps.length (height - 3 - i).toNat ∧
        ∀ k, k < rows.length → ∃ p name, ps[k]? = some p ∧
          truncateString p.Name 20 = some name ∧
          rows[k]? = some (DrawOp.drawText x (y + 2 + ((i + k : Nat) : Int))
            (fmt.row p.PID name p.CPU p.Memory) Style.default) := by
  intro ps
  induction ps with
  | nil =>
    intro i
    exact ⟨[], rfl, by simp, fun k hk => absurd hk (by simp)⟩
  | cons p rest ih =>
    intro i
    by_cases hi : (i : Int) ≥ height - 3
    · refine ⟨[], by simp [tableRows, hi], ?_, fun k hk => absurd hk (by simp)⟩
      have : (height - 3 - (i : Int)).toNat = 0 := by omega
      simp [this]
    · obtain ⟨name, hname⟩ := truncateString_twenty p.Name
      obtain ⟨rows, hrows, hlen, hget⟩ := ih (i + 1)
      refine ⟨DrawOp.drawText x (y + 2 + (i : Int)) (fmt.row p.PID name p.CPU p.Memory)
        Style.default :: rows, by simp [tableRows, hi, hname, hrows], ?_, ?_⟩
      · simp only [List.length_cons, hlen]
        have : (height - 3 - (i : Int)).toNat = (height - 3 - ((i + 1 : Nat) : Int)).toNat + 1 := by
          omega
        rw [this]
        omega
      · intro k hk
        cases k with
        | zero => exact ⟨p, name, by simp, hname, by simp⟩
        | succ k =>
          obtain ⟨q, nm, hq, hnm, hrow⟩ := hget k (by simpa using hk)
          refine ⟨q, nm, by simpa using hq, hnm, ?_⟩
          have : ((i + (k + 1) : Nat) : Int) = ((i + 1 + k : Nat) : Int) := by omega
          simp only [List.getElem?_cons_succ, this]
          exact hrow

/-- C7. For every list of processes and every height (also ≤ 3 or negative),
`drawProcessTable` does not fail and draws the title at row `y`, the header at
row `y + 1`, then exactly `min(len(processes), max(height - 3, 0))` data rows,
the `k`-th at row `y + 2 + k` for the `k`-th process of the list. -/
theorem drawProcessTable_rows (fmt : Sprintf) (x y width height : Int) (title : GoString)
    (processes : List ProcessInfo) :
    ∃ rows, drawProcessTable fmt x y width height title processes =
        some (DrawOp.drawText x y title (Style.foreground Color.yellow) ::
              DrawOp.drawText x (y + 1) tableHeader (Style.foreground Color.green) :: rows) ∧
      rows.length = min processes.length (max (height - 3) 0).toNat ∧
      ∀ k, k < rows.length → ∃ p name, processes[k]? = some p ∧
        truncateString p.Name 20 = some name ∧
        rows[k]? = some (DrawOp.drawText x (y + 2 + (k : Int))
          (fmt.row p.PID name p.CPU p.Memory) Style.default) := by
  obtain ⟨rows, hrows, hlen, hget⟩ := tableRows_spec fmt x y height processes 0
  refine ⟨rows, by simp [drawProcessTable, hrows], ?_, ?_⟩
  · rw [hlen]
    have : (height - 3 - ((0 : Nat) : Int)).toNat = (max (height - 3) 0).toNat := by omega
    rw [this]
  · intro k hk
    obtain ⟨p, name, hp, hname, hrow⟩ := hget k hk
    exact ⟨p, name, hp, hname, by simpa using hrow⟩

/-- Witness of `drawProcessTable_rows`: a table of height 5 given 20 rows draws
the title, the header and 2 data rows. -/
theorem drawProcessTable_rows_witness :
    ∃ ops, drawProcessTable blankSprintf 1 7 40 5 (ascii "Top Memory Usage")
        ((List.range 20).map (fun (i : Nat) => sample (i : Int) (F64.fin 0 0) i)) = some ops ∧
      ops.length = 4 := by
  obtain ⟨rows, h, hlen, _⟩ := drawProcessTable_rows blankSprintf 1 7 40 5
    (ascii "Top Memory Usage") ((List.range 20).map (fun (i : Nat) => sample (i : Int) (F64.fin 0 0) i))
  refine ⟨_, h, ?_⟩
  simp only [List.length_cons, hlen]
  decide

/-- The empty list draws the title and the header only (scenario of C7). -/
theorem drawProcessTable_nil (fmt : Sprintf) (x y width height : Int) (title : GoString) :
    drawProcessTable fmt x y width height title [] =
      some [DrawOp.drawText x y title (Style.foreground Color.yellow),
            DrawOp.drawText x (y + 1) tableHeader (Style.foreground Color.green)] := rfl

/-! ## Bar -/

theorem countP_range_lt (n : Nat) (f : Int) :
    (List.range n).countP (fun (i : Nat) => decide ((i : Int) < f)) = min n f.toNat := by
  induction n with
  | zero => simp
  | succ n ih =>
    rw [List.range_succ, List.countP_append, ih]
    by_cases h : (n : Int) < f
    · simp [List.countP_cons, h]; omega
    · simp [List.countP_cons, h]; omega

theorem filledLength_barCells (x y barWidth filled : Int) :
    filledLength (barCells x y barWidth filled) = min barWidth.toNat filled.toNat := by
  rw [← countP_range_lt]
  simp only [filledLength, barCells, List.countP_map]
  congr 1
  funext i
  by_cases h : (i : Int) < filled <;> simp [barCell, h]

theorem filledLength_drawBar (bad : F64 → Int) (x y width : Int) (label : GoString)
    (value : F64) (stats : GoString) :
    filledLength (drawBar bad x y width label value stats) =
      min (width - 2).toNat (barFilled bad (width - 2) value).toNat := by
  rw [← filledLength_barCells x y]
  simp [drawBar, filledLength, List.countP_append, List.countP_cons]

theorem barFilled_150_40 (bad : F64 → Int) : barFilled bad 40 (F64.fin 150 0) = 60 := by
  rfl

theorem barFilled_50_40 (bad : F64 → Int) : barFilled bad 40 (F64.fin 50 0) = 20 := by
  rfl

/-- C6 (as amended). For every width and every value, the filled segment of
`drawBar` has length `min(w, max(0, filled))` where `w = width - 2` and `filled`
is `int(float64(w) * value / 100)` computed in `float64`; so it never exceeds
`w`, and for `value = 150`, `w = 40` it is 40 (`filled` itself being 60), while
for `value = 50`, `w = 40` it is 20. -/
theorem drawBar_fill_law (bad : F64 → Int) (x y width : Int) (label : GoString)
    (value : F64) (stats : GoString) :
    filledLength (drawBar bad x y width label value stats) =
        (min (width - 2) (max 0 (barFilled bad (width - 2) value))).toNat ∧
      (filledLength (drawBar bad x y width label value stats) : Int) ≤ max (width - 2) 0 ∧
      filledLength (drawBar bad x y 42 label (F64.fin 150 0) stats) = 40 ∧
      filledLength (drawBar bad x y 42 label (F64.fin 50 0) stats) = 20 := by
  refine ⟨?_, ?_, ?_, ?_⟩
  · rw [filledLength_drawBar]; omega
  · rw [filledLength_drawBar]; omega
  · rw [filledLength_drawBar]
    have h : ((42 : Int) - 2) = 40 := by decide
    rw [h, barFilled_150_40]
    decide
  · rw [filledLength_drawBar]
    have h : ((42 : Int) - 2) = 40 := by decide
    rw [h, barFilled_50_40]
    decide

set_option maxRecDepth 8000 in
/-- C6 (as stated) fails at interior width 7 and the value 14.285714285714285
(`8042142191733028 * 2^-49`, in [0,100]): in exact arithmetic
`floor(7 * v / 100) = 0`, but `7 * v` rounds to `100` in `float64`, so `drawBar`
fills one cell. -/
theorem drawBar_floor_counterexample :
    F64.ge (F64.fin 8042142191733028 (-49)) (F64.fin 0 0) = true ∧
      F64.ge hundred (F64.fin 8042142191733028 (-49)) = true ∧
      fillLawExact 7 (F64.fin 8042142191733028 (-49)) = some 0 ∧
      filledLength (drawBar intIndefinite 1 3 9 (ascii "CPU")
        (F64.fin 8042142191733028 (-49)) []) = 1 := by
  refine ⟨by decide, by decide, by decide, ?_⟩
  rw [filledLength_drawBar]
  have h : barFilled intIndefinite (9 - 2) (F64.fin 8042142191733028 (-49)) = 1 := by rfl
  rw [h]
  decide

/-! ## Tick -/

/-- C8 (evaluation of the code at the failing inputs). When the memory read
returns no record, or the CPU read or the network read returns an empty list,
`updateScreen` panics (nil dereference at `v.Used`, index out of range at
`c[0]`, `n[0]`) instead of completing the frame. -/
theorem updateScreen_failed_read_panics (sortSlice : SortSlice) (fmt : Sprintf)
    (bad : F64 → Int) (width height : Int) (v : VirtualMemoryStat) (c : List F64)
    (n : List IOCountersStat) (procs : List Process) :
    updateScreen sortSlice fmt bad width height none c n procs = none ∧
      updateScreen sortSlice fmt bad width height (some v) [] n procs = none ∧
      updateScreen sortSlice fmt bad width height (some v) c [] procs = none := by
  refine ⟨rfl, rfl, ?_⟩
  cases c with
  | nil => rfl
  | cons c0 cs => rfl

/-! ## The library's insertion sort -/

section InsertionSort

variable {α : Type}

theorem getElem?_append_length (pre : List α) (y : α) (rest : List α) :
    (pre ++ y :: rest)[pre.length]? = some y := by
  rw [List.getElem?_append_right (Nat.le_refl _)]
  simp

theorem getElem?_append_length_succ (pre : List α) (y x : α) (rest : List α) :
    (pre ++ y :: x :: rest)[pre.length + 1]? = some x := by
  rw [List.getElem?_append_right (Nat.le_succ _)]
  simp

theorem Swap_adjacent (pre : List α) (y x : α) (rest : List α) :
    GoSort.Swap (pre ++ y :: x :: rest) (pre.length + 1) pre.length = pre ++ x :: y :: rest := by
  simp only [GoSort.Swap, getElem?_append_length, getElem?_append_length_succ]
  simp [List.set_append]

theorem Less_adjacent (lt : α → α → Bool) (pre : List α) (y x : α) (rest : List α) :
    GoSort.Less lt (pre ++ y :: x :: rest) (pre.length + 1) pre.length = lt x y := by
  simp only [GoSort.Less, getElem?_append_length, getElem?_append_length_succ]

theorem insertionInner_eq (lt : α → α → Bool) :
    ∀ (j : Nat) (pre : List α) (x : α) (rest : List α), pre.length = j →
      GoSort.insertionInner lt 0 j (pre ++ x :: rest) =
        (insertRev lt x pre.reverse).reverse ++ rest := by
  intro j
  induction j with
  | zero =>
    intro pre x rest h
    have : pre = [] := List.length_eq_zero.mp h
    subst this
    simp [GoSort.insertionInner, insertRev]
  | succ j ih =>
    intro pre x rest h
    rcases List.eq_nil_or_concat pre with hnil | ⟨pre', y, hpre⟩
    · subst hnil; simp at h
    · subst hpre
      have hlen : pre'.length = j := by simpa using h
      subst hlen
      have hdata : pre'.concat y ++ x :: rest = pre' ++ y :: x :: rest := by simp
      rw [hdata, GoSort.insertionInner, Less_adjacent]
      by_cases hlt : lt x y = true
      · have hpos : 0 < pre'.length + 1 := Nat.succ_pos _
        rw [if_pos ⟨hpos, hlt⟩, Swap_adjacent, ih pre' x (y :: rest) rfl]
        simp [insertRev, hlt]
      · have hneg : ¬ (0 < pre'.length + 1 ∧ lt x y = true) := fun h' => hlt h'.2
        rw [if_neg hneg]
        simp [insertRev, hlt]

theorem length_insertRev (lt : α → α → Bool) (x : α) (r : List α) :
    (insertRev lt x r).length = r.length + 1 := by
  induction r with
  | nil => rfl
  | cons y r ih => by_cases h : lt x y = true <;> simp [insertRev, h, ih]

theorem insertionOuter_eq (lt : α → α → Bool) :
    ∀ (rest pre : List α) (n i : Nat), rest.length = n → pre.length = i →
      GoSort.insertionOuter lt 0 n i (pre ++ rest) =
        (insertAllRev lt pre.reverse rest).reverse := by
  intro rest
  induction rest with
  | nil =>
    intro pre n i hn _
    have : n = 0 := by simpa using hn.symm
    subst this
    simp [GoSort.insertionOuter, insertAllRev]
  | cons x rest ih =>
    intro pre n i hn hi
    cases n with
    | zero => simp at hn
    | succ n =>
      have hn' : rest.length = n := by simpa using hn
      rw [GoSort.insertionOuter, insertionInner_eq lt i pre x rest hi,
        ih ((insertRev lt x pre.reverse).reverse) n (i + 1) hn'
          (by simp [length_insertRev, hi])]
      simp [insertAllRev]

theorem insertionSort_func_eq (lt : α → α → Bool) (data : List α) :
    GoSort.insertionSort_func lt data 0 data.length = (insertAllRev lt [] data).reverse := by
  cases data with
  | nil => simp [GoSort.insertionSort_func, GoSort.insertionOuter, insertAllRev]
  | cons x rest =>
    have h := insertionOuter_eq lt rest [x] rest.length 1 rfl rfl
    simp only [GoSort.insertionSort_func, List.length_cons, Nat.zero_add, Nat.add_sub_cancel]
    have hx : x :: rest = [x] ++ rest := rfl
    rw [hx, h]
    simp [insertAllRev, insertRev]

theorem Slice_eq_insertionSort (lt : α → α → Bool) (data : List α) (h : data.length ≤ 12) :
    GoSort.Slice lt data = GoSort.insertionSort_func lt data 0 data.length := by
  simp [GoSort.Slice, GoSort.pdqsort_func, h]

theorem perm_insertRev (lt : α → α → Bool) (x : α) (r : List α) :
    (insertRev lt x r).Perm (x :: r) := by
  induction r with
  | nil => exact List.Perm.refl _
  | cons y r ih =>
    by_cases h : lt x y = true
    · simp only [insertRev, h, if_true]
      exact (List.Perm.cons y ih).trans (List.Perm.swap x y r)
    · simp only [insertRev, h]
      exact List.Perm.refl _

theorem mem_insertRev (lt : α → α → Bool) (x a : α) (r : List α) :
    a ∈ insertRev lt x r ↔ a = x ∨ a ∈ r := by
  rw [(perm_insertRev lt x r).mem_iff, List.mem_cons]

theorem perm_insertAllRev (lt : α → α → Bool) (xs racc : List α) :
    (insertAllRev lt racc xs).Perm (xs ++ racc) := by
  induction xs generalizing racc with
  | nil => exact List.Perm.refl _
  | cons x xs ih =>
    simp only [insertAllRev, List.foldl_cons]
    refine (ih (insertRev lt x racc)).trans ?_
    refine (List.Perm.append_left xs (perm_insertRev lt x racc)).trans ?_
    exact List.perm_middle

theorem filter_insertRev (lt : α → α → Bool) (p : α → Bool)
    (hp : ∀ a b, lt a b = true → p a = true → p b = true → False) (x : α) (r : List α) :
    (insertRev lt x r).filter p = (x :: r).filter p := by
  induction r with
  | nil => rfl
  | cons y r ih =>
    by_cases h : lt x y = true
    · simp only [insertRev, h, if_true, List.filter_cons, ih]
      by_cases hx : p x = true
      · have hy : ¬ p y = true := fun hy => hp x y h hx hy
        simp [hx, hy]
      · simp [hx]
    · simp only [insertRev, h]
      rfl

theorem filter_insertAllRev (lt : α → α → Bool) (p : α → Bool)
    (hp : ∀ a b, lt a b = true → p a = true → p b = true → False) (xs racc : List α) :
    (insertAllRev lt racc xs).filter p = (xs.reverse ++ racc).filter p := by
  induction xs generalizing racc with
  | nil => rfl
  | cons x xs ih =>
    simp only [insertAllRev, List.foldl_cons]
    have := ih (insertRev lt x racc)
    simp only [insertAllRev] at this
    rw [this, List.filter_append, filter_insertRev lt p hp, List.reverse_cons,
      List.append_assoc, List.filter_append]
    rfl

/-- The library's insertion sort keeps the entries of any class `p` that `less`
never orders internally in their input order. -/
theorem filter_insertionSort_func (lt : α → α → Bool) (p : α → Bool)
    (hp : ∀ a b, lt a b = true → p a = true → p b = true → False) (data : List α) :
    (GoSort.insertionSort_func lt data 0 data.length).filter p = data.filter p := by
  rw [insertionSort_func_eq, List.filter_reverse, filter_insertAllRev lt p hp]
  simp [List.filter_reverse]

theorem perm_insertionSort_func (lt : α → α → Bool) (data : List α) :
    (GoSort.insertionSort_func lt data 0 data.length).Perm data := by
  rw [insertionSort_func_eq]
  refine (List.reverse_perm _).trans ?_
  simpa using perm_insertAllRev lt data []

end InsertionSort

theorem pairwise_insertRev (less : ProcessInfo → ProcessInfo → Bool) (all : List ProcessInfo)
    (ho : LessOrdering less all) (x : ProcessInfo) (hx : x ∈ all) :
    ∀ (r : List ProcessInfo), (∀ a ∈ r, a ∈ all) → r.Pairwise (fun a b => less a b = false) →
      (insertRev less x r).Pairwise (fun a b => less a b = false) := by
  intro r
  induction r with
  | nil => intro _ _; simp [insertRev]
  | cons y r ih =>
    intro hall hr
    have hy : y ∈ all := hall y (List.mem_cons_self _ _)
    have hr' := List.pairwise_cons.mp hr
    by_cases h : less x y = true
    · simp only [insertRev, h, if_true]
      refine List.pairwise_cons.mpr ⟨?_, ih (fun a ha => hall a (List.mem_cons_of_mem _ ha)) hr'.2⟩
      intro a ha
      rcases (mem_insertRev less x a r).mp ha with rfl | ha
      · cases hyx : less y a with
        | false => rfl
        | true =>
          have := ho.trans a hx y hy a hx h hyx
          rw [ho.irrefl a hx] at this
          cases this
      · exact hr'.1 a ha
    · have hf : less x y = false := by simpa using h
      simp only [insertRev, h]
      refine List.pairwise_cons.mpr ⟨?_, hr⟩
      intro a ha
      rcases List.mem_cons.mp ha with rfl | ha
      · exact hf
      · exact ho.negTrans x hx y hy a (hall a (List.mem_cons_of_mem _ ha)) hf (hr'.1 a ha)

theorem pairwise_insertAllRev (less : ProcessInfo → ProcessInfo → Bool) (all : List ProcessInfo)
    (ho : LessOrdering less all) :
    ∀ (xs racc : List ProcessInfo), (∀ a ∈ xs, a ∈ all) → (∀ a ∈ racc, a ∈ all) →
      racc.Pairwise (fun a b => less a b = false) →
      (insertAllRev less racc xs).Pairwise (fun a b => less a b = false) := by
  intro xs
  induction xs with
  | nil => intro racc _ _ h; exact h
  | cons x xs ih =>
    intro racc hxs hracc h
    simp only [insertAllRev, List.foldl_cons]
    have hx : x ∈ all := hxs x (List.mem_cons_self _ _)
    refine ih (insertRev less x racc) (fun a ha => hxs a (List.mem_cons_of_mem _ ha)) ?_
      (pairwise_insertRev less all ho x hx racc hracc h)
    intro a ha
    rcases (mem_insertRev less x a racc).mp ha with rfl | ha
    · exact hx
    · exact hracc a ha

/-- The library's insertion sort, run on the whole slice, meets the contract of
`sort.Slice`. -/
theorem insertionSortSlice_spec : SortSliceSpec insertionSortSlice where
  perm := fun less xs => perm_insertionSort_func less xs
  sorted := by
    intro less xs ho
    show (GoSort.insertionSort_func less xs 0 xs.length).Pairwise _
    rw [insertionSort_func_eq, List.pairwise_reverse]
    exact pairwise_insertAllRev less xs ho xs [] (fun a ha => ha) (fun a ha => by simp at ha)
      List.Pairwise.nil

/-! ## Ranking by memory -/

theorem top10_eq_take (l : List ProcessInfo) : top10 l = l.take 10 := by
  unfold top10
  split
  · rfl
  · rw [List.take_of_length_le (by omega)]

theorem length_top10 (l : List ProcessInfo) : (top10 l).length = min l.length 10 := by
  rw [top10_eq_take, List.length_take]
  omega

theorem lessByMemory_ordering (xs : List ProcessInfo) : LessOrdering lessByMemory xs where
  irrefl := by intro a _; simp [lessByMemory]
  trans := by
    intro a _ b _ c _ h1 h2
    simp only [lessByMemory, decide_eq_true_eq] at *
    omega
  negTrans := by
    intro a _ b _ c _ h1 h2
    simp only [lessByMemory, decide_eq_false_iff_not] at *
    omega

/-- C1. For every list of process samples (the empty one included) and every
`sort.Slice` meeting its contract, `sortByMemory` returns a list sorted in
non-increasing order of `MemSize`, of length `min(n, 10)`, whose entries are
entries of the input; with `n` at most 10 it is the whole input rearranged. -/
theorem sortByMemory_sorted_top10 (sortSlice : SortSlice) (hs : SortSliceSpec sortSlice)
    (processes : List ProcessInfo) :
    (sortByMemory sortSlice processes).2.Pairwise (fun a b => a.MemSize ≥ b.MemSize) ∧
      (sortByMemory sortSlice processes).2.length = min processes.length 10 ∧
      (sortByMemory sortSlice processes).2.Subperm processes ∧
      (processes.length ≤ 10 → (sortByMemory sortSlice processes).2.Perm processes) := by
  have hperm := hs.perm lessByMemory processes
  have hsorted := hs.sorted lessByMemory processes (lessByMemory_ordering processes)
  have hview : (sortByMemory sortSlice processes).2 =
      (sortSlice lessByMemory processes).take 10 := top10_eq_take _
  rw [hview]
  refine ⟨?_, ?_, ?_, ?_⟩
  · refine (hsorted.sublist (List.take_sublist _ _)).imp ?_
    intro a b h
    simp only [lessByMemory, decide_eq_false_iff_not] at h
    omega
  · rw [List.length_take, hperm.length_eq]
    omega
  · exact (List.take_sublist _ _).subperm.trans hperm.subperm
  · intro h
    rw [List.take_of_length_le (by rw [hperm.length_eq]; exact h)]
    exact hperm

/-- Witness of `sortByMemory_sorted_top10`: the library's insertion sort meets
the contract, and three samples are ranked. -/
theorem sortByMemory_sorted_top10_witness :
    SortSliceSpec insertionSortSlice ∧
      (sortByMemory insertionSortSlice
        [sample 1 (F64.fin 0 0) 10, sample 2 (F64.fin 0 0) 30, sample 3 (F64.fin 0 0) 20]).2.length
        = min 3 10 :=
  ⟨insertionSortSlice_spec,
    (sortByMemory_sorted_top10 insertionSortSlice insertionSortSlice_spec
      [sample 1 (F64.fin 0 0) 10, sample 2 (F64.fin 0 0) 30, sample 3 (F64.fin 0 0) 20]).2.1⟩

/-! ## The order of `float64` -/

theorem F64.cast_scaled (m e e0 : Int) (h : e0 ≤ e) :
    ((m * 2 ^ (e - e0).toNat : Int) : ℚ) = F64.val m e * (2 : ℚ) ^ (-e0) := by
  unfold F64.val
  push_cast
  have h2 : ((2 : ℚ) ^ (e - e0).toNat) = (2 : ℚ) ^ (e - e0) := by
    rw [← zpow_natCast, Int.toNat_of_nonneg (by omega)]
  rw [h2, zpow_sub₀ (by norm_num), zpow_neg]
  ring

theorem F64.gt_fin_iff (m1 e1 m2 e2 : Int) :
    F64.gt (F64.fin m1 e1) (F64.fin m2 e2) = true ↔ F64.val m2 e2 < F64.val m1 e1 := by
  simp only [F64.gt, decide_eq_true_eq]
  have hc : (((m2 * 2 ^ (e2 - min e1 e2).toNat : Int) : ℚ) <
      ((m1 * 2 ^ (e1 - min e1 e2).toNat : Int) : ℚ)) ↔
      m2 * 2 ^ (e2 - min e1 e2).toNat < m1 * 2 ^ (e1 - min e1 e2).toNat := Int.cast_lt
  rw [← hc, F64.cast_scaled m2 e2 _ (min_le_right _ _),
    F64.cast_scaled m1 e1 _ (min_le_left _ _)]
  have hpos : (0 : ℚ) < (2 : ℚ) ^ (-(min e1 e2)) := zpow_pos (by norm_num) _
  exact mul_lt_mul_right hpos

theorem F64.gt_iff_key (a b : F64) (ha : a.isNaN = false) (hb : b.isNaN = false) :
    F64.gt a b = true ↔ F64.key b < F64.key a := by
  cases a with
  | nan => simp [F64.isNaN] at ha
  | inf n1 =>
    cases b with
    | nan => simp [F64.isNaN] at hb
    | inf n2 => cases n1 <;> cases n2 <;> simp [F64.gt, F64.key]
    | fin m2 e2 =>
      cases n1
      · simp only [F64.gt, F64.key, Bool.not_false, true_iff]
        exact WithBot.coe_lt_coe.mpr (WithTop.coe_lt_top _)
      · simp [F64.gt, F64.key]
  | fin m1 e1 =>
    cases b with
    | nan => simp [F64.isNaN] at hb
    | inf n2 =>
      cases n2
      · simp only [F64.gt, F64.key, Bool.false_eq_true, false_iff, not_lt]
        exact WithBot.coe_le_coe.mpr le_top
      · simp only [F64.gt, F64.key, true_iff]
        exact WithBot.bot_lt_coe _
    | fin m2 e2 =>
      rw [F64.gt_fin_iff]
      simp only [F64.key]
      rw [WithBot.coe_lt_coe, WithTop.coe_lt_coe]

theorem F64.gt_nan_left (b : F64) : F64.gt F64.nan b = false := by
  cases b <;> rfl

theorem F64.gt_nan_right (a : F64) : F64.gt a F64.nan = false := by
  cases a <;> rfl

theorem F64.gt_irrefl (a : F64) : F64.gt a a = false := by
  cases h : a.isNaN with
  | true => cases a <;> simp [F64.isNaN] at h; rfl
  | false =>
    cases hg : F64.gt a a with
    | false => rfl
    | true => exact absurd ((F64.gt_iff_key a a h h).mp hg) (lt_irrefl _)

theorem F64.ge_of_not_gt (a b : F64) (ha : a.isNaN = false) (hb : b.isNaN = false)
    (h : F64.gt b a = false) : F64.ge a b = true := by
  cases a with
  | nan => simp [F64.isNaN] at ha
  | inf n1 =>
    cases b with
    | nan => simp [F64.isNaN] at hb
    | inf n2 => simp [F64.ge, h]
    | fin m2 e2 => simp [F64.ge, h]
  | fin m1 e1 =>
    cases b with
    | nan => simp [F64.isNaN] at hb
    | inf n2 => simp [F64.ge, h]
    | fin m2 e2 => simp [F64.ge, h]

theorem lessByCPU_ordering (xs : List ProcessInfo) (hnan : ∀ p ∈ xs, p.CPU.isNaN = false) :
    LessOrdering lessByCPU xs where
  irrefl := fun a _ => F64.gt_irrefl a.CPU
  trans := by
    intro a ha b hb c hc h1 h2
    simp only [lessByCPU] at *
    rw [F64.gt_iff_key _ _ (hnan a ha) (hnan c hc)]
    exact lt_trans ((F64.gt_iff_key _ _ (hnan b hb) (hnan c hc)).mp h2)
      ((F64.gt_iff_key _ _ (hnan a ha) (hnan b hb)).mp h1)
  negTrans := by
    intro a ha b hb c hc h1 h2
    simp only [lessByCPU] at *
    cases hg : F64.gt a.CPU c.CPU with
    | false => rfl
    | true =>
      have hac := (F64.gt_iff_key _ _ (hnan a ha) (hnan c hc)).mp hg
      have hab : ¬ F64.key b.CPU < F64.key a.CPU := fun h =>
        by rw [(F64.gt_iff_key _ _ (hnan a ha) (hnan b hb)).mpr h] at h1; cases h1
      have hbc : ¬ F64.key c.CPU < F64.key b.CPU := fun h =>
        by rw [(F64.gt_iff_key _ _ (hnan b hb) (hnan c hc)).mpr h] at h2; cases h2
      exact absurd (lt_of_lt_of_le hac (not_lt.mp hab)) hbc

/-! ## Ranking by CPU -/

/-- C2 (as amended). For every list of process samples and every `sort.Slice`
meeting its contract, `sortByCPU` returns a list of length `min(n, 10)`, hence
at most 10, made of entries of the input; when none of the CPU percentages is
NaN, the list is sorted in non-increasing order of the CPU percentage. -/
theorem sortByCPU_sorted_top10 (sortSlice : SortSlice) (hs : SortSliceSpec sortSlice)
    (processes : List ProcessInfo) :
    (sortByCPU sortSlice processes).2.length = min processes.length 10 ∧
      (sortByCPU sortSlice processes).2.length ≤ 10 ∧
      (sortByCPU sortSlice processes).2.Subperm processes ∧
      ((∀ p ∈ processes, p.CPU.isNaN = false) →
        (sortByCPU sortSlice processes).2.Pairwise (fun a b => F64.ge a.CPU b.CPU = true)) := by
  have hperm := hs.perm lessByCPU processes
  have hview : (sortByCPU sortSlice processes).2 =
      (sortSlice lessByCPU processes).take 10 := top10_eq_take _
  rw [hview]
  refine ⟨?_, ?_, ?_, ?_⟩
  · rw [List.length_take, hperm.length_eq]
    omega
  · rw [List.length_take]
    omega
  · exact (List.take_sublist _ _).subperm.trans hperm.subperm
  · intro hnan
    have hsorted := hs.sorted lessByCPU processes (lessByCPU_ordering processes hnan)
    refine List.Pairwise.imp_of_mem ?_ (hsorted.sublist (List.take_sublist _ _))
    intro a b ha hb h
    have ha' : a ∈ processes := hperm.mem_iff.mp (List.mem_of_mem_take ha)
    have hb' : b ∈ processes := hperm.mem_iff.mp (List.mem_of_mem_take hb)
    exact F64.ge_of_not_gt _ _ (hnan a ha') (hnan b hb') h

/-- Witness of `sortByCPU_sorted_top10`: three samples with CPU 1, 3 and 2 are
ranked in non-increasing order of CPU. -/
theorem sortByCPU_sorted_top10_witness :
    SortSliceSpec insertionSortSlice ∧
      (∀ p ∈ [sample 1 (F64.fin 1 0) 0, sample 2 (F64.fin 3 0) 0, sample 3 (F64.fin 2 0) 0],
        p.CPU.isNaN = false) ∧
      (sortByCPU insertionSortSlice
        [sample 1 (F64.fin 1 0) 0, sample 2 (F64.fin 3 0) 0, sample 3 (F64.fin 2 0) 0]).2.Pairwise
        (fun a b => F64.ge a.CPU b.CPU = true) :=
  ⟨insertionSortSlice_spec, by decide,
    (sortByCPU_sorted_top10 insertionSortSlice insertionSortSlice_spec
      [sample 1 (F64.fin 1 0) 0, sample 2 (F64.fin 3 0) 0, sample 3 (F64.fin 2 0) 0]).2.2.2
      (by decide)⟩

/-- C2 (as stated) fails on the samples with CPU 1, NaN, 2: every comparison
with NaN is false, so `sort.Slice` leaves the slice as it is, and 1 comes
before 2 in the result. -/
theorem sortByCPU_nan_counterexample :
    (sortByCPU goSortSlice
        [sample 1 (F64.fin 1 0) 0, sample 2 F64.nan 0, sample 3 (F64.fin 2 0) 0]).2 =
      [sample 1 (F64.fin 1 0) 0, sample 2 F64.nan 0, sample 3 (F64.fin 2 0) 0] ∧
    ¬ (sortByCPU goSortSlice
        [sample 1 (F64.fin 1 0) 0, sample 2 F64.nan 0, sample 3 (F64.fin 2 0) 0]).2.Pairwise
      (fun a b => F64.ge a.CPU b.CPU = true) := by
  decide

/-! ## Stability -/

theorem filter_take_prefix (p : ProcessInfo → Bool) (l : List ProcessInfo) (n : Nat) :
    (l.take n).filter p <+: l.filter p := by
  have h : l.filter p = (l.take n).filter p ++ (l.drop n).filter p := by
    rw [← List.filter_append, List.take_append_drop]
  rw [h]
  exact List.prefix_append _ _

theorem goSortSlice_short (less : ProcessInfo → ProcessInfo → Bool)
    (processes : List ProcessInfo) (h : processes.length ≤ 12) :
    goSortSlice less processes = GoSort.insertionSort_func less processes 0 processes.length :=
  Slice_eq_insertionSort less processes h

theorem F64.gt_not_nan (a b : F64) (h : F64.gt a b = true) :
    a.isNaN = false ∧ b.isNaN = false := by
  cases a <;> cases b <;> simp [F64.gt, F64.isNaN] at h ⊢

theorem F64.key_eq_of_eq (a k : F64) (h : F64.eq a k = true) : F64.key a = F64.key k := by
  simp only [F64.eq, Bool.and_eq_true, Bool.not_eq_true'] at h
  obtain ⟨⟨⟨ha, hk⟩, h1⟩, h2⟩ := h
  have h1' : ¬ F64.key k < F64.key a := fun hlt => by
    rw [(F64.gt_iff_key a k ha hk).mpr hlt] at h1; cases h1
  have h2' : ¬ F64.key a < F64.key k := fun hlt => by
    rw [(F64.gt_iff_key k a hk ha).mpr hlt] at h2; cases h2
  exact le_antisymm (not_lt.mp h1') (not_lt.mp h2')

theorem take_filter_max (M : Nat) (l : List ProcessInfo)
    (hs : l.Pairwise (fun a b => a.MemSize ≥ b.MemSize)) (hM : ∀ p ∈ l, p.MemSize ≤ M) :
    l.take (l.filter (fun p => decide (p.MemSize = M))).length =
      l.filter (fun p => decide (p.MemSize = M)) := by
  induction l with
  | nil => rfl
  | cons a l ih =>
    have hs' := List.pairwise_cons.mp hs
    have ih' := ih hs'.2 (fun p hp => hM p (List.mem_cons_of_mem _ hp))
    by_cases ha : a.MemSize = M
    · simp only [List.filter_cons, ha, decide_True, if_true, List.length_cons, List.take_succ_cons]
      rw [ih']
    · have hlt : a.MemSize < M := lt_of_le_of_ne (hM a (List.mem_cons_self _ _)) ha
      have hnil : l.filter (fun p => decide (p.MemSize = M)) = [] := by
        rw [List.filter_eq_nil_iff]
        intro b hb
        have := hs'.1 b hb
        simp only [decide_eq_true_eq]
        omega
      simp [List.filter_cons, ha, hnil]

/-- C3 (as amended). On an input of at most 12 samples (where `sort.Slice` runs
its insertion sort) both rankings are stable: for every key, the samples of
the view with that key are the first samples of the input with that key, in
input order.  On longer inputs `sort.Slice` promises no order among equal
keys; when the samples of resident size 1000 are `P1, P2, P3` and no sample is
larger, the first three entries of the by-memory view are `P1, P2, P3` in some
order, for every `sort.Slice` meeting its contract. -/
theorem ranking_stability (processes : List ProcessInfo) :
    (processes.length ≤ 12 →
      (∀ k : Nat, KeepsOrder (fun p => decide (p.MemSize = k)) processes
        (sortByMemory goSortSlice processes).2) ∧
      (∀ k : F64, KeepsOrder (fun p => F64.eq p.CPU k) processes
        (sortByCPU goSortSlice processes).2)) ∧
    (∀ (sortSlice : SortSlice) (P1 P2 P3 : ProcessInfo), SortSliceSpec sortSlice →
      processes.filter (fun p => decide (p.MemSize = 1000)) = [P1, P2, P3] →
      (∀ p ∈ processes, p.MemSize ≤ 1000) →
      ((sortByMemory sortSlice processes).2.take 3).Perm [P1, P2, P3]) := by
  refine ⟨fun hlen => ⟨fun k => ?_, fun k => ?_⟩, ?_⟩
  · have hsort : (sortByMemory goSortSlice processes).2 =
        (GoSort.insertionSort_func lessByMemory processes 0 processes.length).take 10 := by
      rw [← goSortSlice_short lessByMemory processes hlen]
      exact top10_eq_take _
    unfold KeepsOrder
    rw [hsort, ← filter_insertionSort_func lessByMemory (fun p => decide (p.MemSize = k)) ?_
      processes]
    · exact filter_take_prefix _ _ _
    · intro a b hab ha hb
      simp only [lessByMemory, decide_eq_true_eq] at hab ha hb
      omega
  · have hsort : (sortByCPU goSortSlice processes).2 =
        (GoSort.insertionSort_func lessByCPU processes 0 processes.length).take 10 := by
      rw [← goSortSlice_short lessByCPU processes hlen]
      exact top10_eq_take _
    unfold KeepsOrder
    rw [hsort, ← filter_insertionSort_func lessByCPU (fun p => F64.eq p.CPU k) ?_ processes]
    · exact filter_take_prefix _ _ _
    · intro a b hab ha hb
      have hnn := F64.gt_not_nan _ _ hab
      have hlt := (F64.gt_iff_key _ _ hnn.1 hnn.2).mp hab
      rw [F64.key_eq_of_eq _ _ ha, F64.key_eq_of_eq _ _ hb] at hlt
      exact lt_irrefl _ hlt
  · intro sortSlice P1 P2 P3 hs hP hmax
    have hperm := hs.perm lessByMemory processes
    have hsorted := hs.sorted lessByMemory processes (lessByMemory_ordering processes)
    have hsorted' : (sortSlice lessByMemory processes).Pairwise
        (fun a b => a.MemSize ≥ b.MemSize) := by
      refine hsorted.imp ?_
      intro a b h
      simp only [lessByMemory, decide_eq_false_iff_not] at h
      omega
    have hfilter : ((sortSlice lessByMemory processes).filter
        (fun p => decide (p.MemSize = 1000))).Perm [P1, P2, P3] := by
      rw [← hP]
      exact hperm.filter _
    have htake := take_filter_max 1000 (sortSlice lessByMemory processes) hsorted'
      (fun p hp => hmax p (hperm.mem_iff.mp hp))
    rw [hfilter.length_eq] at htake
    have hview : (sortByMemory sortSlice processes).2.take 3 =
        (sortSlice lessByMemory processes).take 3 := by
      show (top10 (sortSlice lessByMemory processes)).take 3 = _
      rw [top10_eq_take, List.take_take]
      rfl
    rw [hview]
    have h3 : ([P1, P2, P3] : List ProcessInfo).length = 3 := rfl
    rw [h3] at htake
    rw [htake]
    exact hfilter

/-- Witness of `ranking_stability`: two samples of equal resident size keep their
order, and in the tie scenario the library's insertion sort puts the three
samples of size 1000 first. -/
theorem ranking_stability_witness :
    KeepsOrder (fun p => decide (p.MemSize = 7))
        [sample 1 (F64.fin 0 0) 7, sample 2 (F64.fin 0 0) 9, sample 3 (F64.fin 0 0) 7]
        (sortByMemory goSortSlice
          [sample 1 (F64.fin 0 0) 7, sample 2 (F64.fin 0 0) 9, sample 3 (F64.fin 0 0) 7]).2 ∧
      ((sortByMemory insertionSortSlice tieScenario).2.take 3).Perm
        [sample 1 (F64.fin 0 0) 1000, sample 2 (F64.fin 0 0) 1000, sample 3 (F64.fin 0 0) 1000] :=
  ⟨((ranking_stability
      [sample 1 (F64.fin 0 0) 7, sample 2 (F64.fin 0 0) 9, sample 3 (F64.fin 0 0) 7]).1
      (by decide)).1 7,
    (ranking_stability tieScenario).2 insertionSortSlice _ _ _ insertionSortSlice_spec
      (by decide) (by decide)⟩

/-- C3 (as stated) fails on the tie scenario: the samples 1, 2, 3 are the only
ones of resident size 1000, in this input order, and `sort.Slice` (Go 1.19 and
later) puts them first in the order 3, 2, 1. -/
theorem sortByMemory_unstable_counterexample :
    tieScenario.length = 15 ∧
      (tieScenario.filter (fun p => decide (p.MemSize = 1000))).map (fun p => p.PID) = [1, 2, 3] ∧
      (∀ p ∈ tieScenario, p.MemSize ≤ 1000) ∧
      ((sortByMemory goSortSlice tieScenario).2.take 3).map (fun p => p.PID) = [3, 2, 1] := by
  decide

/-! ## The two rankings of one tick -/

theorem LessOrdering.of_mem {less : ProcessInfo → ProcessInfo → Bool}
    {xs ys : List ProcessInfo} (h : LessOrdering less xs) (hsub : ∀ a ∈ ys, a ∈ xs) :
    LessOrdering less ys where
  irrefl := fun a ha => h.irrefl a (hsub a ha)
  trans := fun a ha b hb c hc => h.trans a (hsub a ha) b (hsub b hb) c (hsub c hc)
  negTrans := fun a ha b hb c hc => h.negTrans a (hsub a ha) b (hsub b hb) c (hsub c hc)

theorem eq_of_perm_of_pairwise {R : ProcessInfo → ProcessInfo → Prop} :
    ∀ (l₁ l₂ : List ProcessInfo), l₁.Perm l₂ → l₁.Pairwise R → l₂.Pairwise R →
      (∀ a ∈ l₁, ∀ b ∈ l₁, R a b → R b a → a = b) → l₁ = l₂ := by
  intro l₁
  induction l₁ with
  | nil =>
    intro l₂ hp _ _ _
    exact hp.nil_eq
  | cons a t₁ ih =>
    intro l₂ hp h1 h2 hanti
    cases l₂ with
    | nil => exact absurd hp.length_eq (by simp)
    | cons b t₂ =>
      have h1' := List.pairwise_cons.mp h1
      have h2' := List.pairwise_cons.mp h2
      have hab : a = b := by
        have ha : a ∈ b :: t₂ := hp.mem_iff.mp (List.mem_cons_self _ _)
        have hb : b ∈ a :: t₁ := hp.mem_iff.mpr (List.mem_cons_self _ _)
        rcases List.mem_cons.mp ha with h | h
        · exact h
        · rcases List.mem_cons.mp hb with h' | h'
          · exact h'.symm
          · exact hanti a (List.mem_cons_self _ _) b hb (h1'.1 b h') (h2'.1 a h)
      subst hab
      have ht : t₁ = t₂ := ih t₂ (List.Perm.cons_inv hp) h1'.2 h2'.2
        (fun x hx y hy => hanti x (List.mem_cons_of_mem _ hx) y (List.mem_cons_of_mem _ hy))
      rw [ht]

theorem lessByCPU_ordering_of_distinct (xs : List ProcessInfo)
    (hall : ∀ a ∈ xs, ∀ b ∈ xs, a ≠ b →
      (F64.gt a.CPU b.CPU = true ∨ F64.gt b.CPU a.CPU = true)) :
    LessOrdering lessByCPU xs where
  irrefl := fun a _ => F64.gt_irrefl a.CPU
  trans := by
    intro a _ b _ c _ h1 h2
    simp only [lessByCPU] at *
    have n1 := F64.gt_not_nan _ _ h1
    have n2 := F64.gt_not_nan _ _ h2
    rw [F64.gt_iff_key _ _ n1.1 n2.2]
    exact lt_trans ((F64.gt_iff_key _ _ n2.1 n2.2).mp h2) ((F64.gt_iff_key _ _ n1.1 n1.2).mp h1)
  negTrans := by
    intro a ha b hb c hc h1 h2
    simp only [lessByCPU] at *
    cases hg : F64.gt a.CPU c.CPU with
    | false => rfl
    | true =>
      exfalso
      have nac := F64.gt_not_nan _ _ hg
      have hac := (F64.gt_iff_key _ _ nac.1 nac.2).mp hg
      by_cases hba : a = b
      · subst hba
        rw [hg] at h2
        cases h2
      · by_cases hbc : b = c
        · subst hbc
          rw [hg] at h1
          cases h1
        · have hgba : F64.gt b.CPU a.CPU = true := by
            rcases hall a ha b hb hba with h | h
            · rw [h] at h1; cases h1
            · exact h
          have hgcb : F64.gt c.CPU b.CPU = true := by
            rcases hall b hb c hc hbc with h | h
            · rw [h] at h2; cases h2
            · exact h
          have nb := (F64.gt_not_nan _ _ hgba).1
          have k1 := (F64.gt_iff_key _ _ nb nac.1).mp hgba
          have k2 := (F64.gt_iff_key _ _ nac.2 nb).mp hgcb
          exact lt_irrefl _ (lt_trans hac (lt_trans k1 k2))

theorem F64.eq_of_key_eq (a b : F64) (ha : a.isNaN = false) (hb : b.isNaN = false)
    (h : F64.key a = F64.key b) : F64.eq a b = true := by
  have h1 : F64.gt a b = false := by
    cases hg : F64.gt a b with
    | false => rfl
    | true =>
      have := (F64.gt_iff_key a b ha hb).mp hg
      rw [h] at this
      exact absurd this (lt_irrefl _)
  have h2 : F64.gt b a = false := by
    cases hg : F64.gt b a with
    | false => rfl
    | true =>
      have := (F64.gt_iff_key b a hb ha).mp hg
      rw [h] at this
      exact absurd this (lt_irrefl _)
  simp [F64.eq, ha, hb, h1, h2]

theorem forall₂_eq_of_map_key_eq :
    ∀ (l₁ l₂ : List ProcessInfo), (∀ p ∈ l₁, p.CPU.isNaN = false) →
      (∀ p ∈ l₂, p.CPU.isNaN = false) →
      l₁.map (fun p => F64.key p.CPU) = l₂.map (fun p => F64.key p.CPU) →
      List.Forall₂ (fun a b => F64.eq a.CPU b.CPU = true) l₁ l₂ := by
  intro l₁
  induction l₁ with
  | nil =>
    intro l₂ _ _ h
    cases l₂ with
    | nil => exact List.Forall₂.nil
    | cons b t => simp at h
  | cons a t ih =>
    intro l₂ h1 h2 h
    cases l₂ with
    | nil => simp at h
    | cons b t₂ =>
      simp only [List.map_cons, List.cons.injEq] at h
      refine List.Forall₂.cons ?_ (ih t₂ (fun p hp => h1 p (List.mem_cons_of_mem _ hp))
        (fun p hp => h2 p (List.mem_cons_of_mem _ hp)) h.2)
      exact F64.eq_of_key_eq _ _ (h1 a (List.mem_cons_self _ _)) (h2 b (List.mem_cons_self _ _)) h.1

theorem map_key_sorted (l : List ProcessInfo) (hnan : ∀ p ∈ l, p.CPU.isNaN = false)
    (hs : l.Pairwise (fun a b => lessByCPU b a = false)) :
    (l.map (fun p => F64.key p.CPU)).Sorted (fun x y => x ≥ y) := by
  unfold List.Sorted
  rw [List.pairwise_map]
  refine List.Pairwise.imp_of_mem ?_ hs
  intro a b ha hb h
  have hlt : ¬ F64.key a.CPU < F64.key b.CPU := fun hlt => by
    have := (F64.gt_iff_key b.CPU a.CPU (hnan b hb) (hnan a ha)).mpr hlt
    simp only [lessByCPU] at h
    rw [this] at h
    cases h
  exact not_lt.mp hlt

/-- C4 (as amended). The two rankings of one tick share the slice: the by-CPU
view is `sortByCPU` of the slice as `sortByMemory` left it (sorted by memory).
It always has `min(n, 10)` entries, all of them entries of the snapshot.  When
no CPU percentage of the snapshot is NaN, it carries in every position the same
CPU value as `sortByCPU` of the snapshot itself, so the two can differ only in
the order of samples of equal CPU; when the CPU percentages are moreover
pairwise different, the two are equal.  This holds for every `sort.Slice`
meeting its contract. -/
theorem rankedViews_cpu (sortSlice : SortSlice) (hs : SortSliceSpec sortSlice)
    (processes : List ProcessInfo) :
    (rankedViews sortSlice processes).2 =
        (sortByCPU sortSlice (sortSlice lessByMemory processes)).2 ∧
      (rankedViews sortSlice processes).2.length = min processes.length 10 ∧
      (rankedViews sortSlice processes).2.Subperm processes ∧
      ((∀ p ∈ processes, p.CPU.isNaN = false) →
        List.Forall₂ (fun a b => F64.eq a.CPU b.CPU = true)
          (rankedViews sortSlice processes).2 (sortByCPU sortSlice processes).2) ∧
      (processes.Pairwise (fun a b =>
          F64.gt a.CPU b.CPU = true ∨ F64.gt b.CPU a.CPU = true) →
        (rankedViews sortSlice processes).2 = (sortByCPU sortSlice processes).2) := by
  have hpm := hs.perm lessByMemory processes
  have hpA := hs.perm lessByCPU (sortSlice lessByMemory processes)
  have hpB := hs.perm lessByCPU processes
  have hviewA : (rankedViews sortSlice processes).2 =
      (sortSlice lessByCPU (sortSlice lessByMemory processes)).take 10 := top10_eq_take _
  have hviewB : (sortByCPU sortSlice processes).2 =
      (sortSlice lessByCPU processes).take 10 := top10_eq_take _
  refine ⟨rfl, ?_, ?_, fun hnan => ?_, fun hd => ?_⟩
  · rw [hviewA, List.length_take, (hpA.trans hpm).length_eq]
    omega
  · rw [hviewA]
    exact (List.take_sublist _ _).subperm.trans (hpA.trans hpm).subperm
  · have hnanM : ∀ p ∈ sortSlice lessByMemory processes, p.CPU.isNaN = false :=
      fun p hp => hnan p (hpm.mem_iff.mp hp)
    have hnanA : ∀ p ∈ sortSlice lessByCPU (sortSlice lessByMemory processes),
        p.CPU.isNaN = false := fun p hp => hnanM p (hpA.mem_iff.mp hp)
    have hnanB : ∀ p ∈ sortSlice lessByCPU processes, p.CPU.isNaN = false :=
      fun p hp => hnan p (hpB.mem_iff.mp hp)
    have hsA := hs.sorted lessByCPU _ (lessByCPU_ordering _ hnanM)
    have hsB := hs.sorted lessByCPU _ (lessByCPU_ordering _ hnan)
    have hkeys : (sortSlice lessByCPU (sortSlice lessByMemory processes)).map
          (fun p => F64.key p.CPU) =
        (sortSlice lessByCPU processes).map (fun p => F64.key p.CPU) :=
      List.eq_of_perm_of_sorted (((hpA.trans hpm).trans hpB.symm).map _)
        (map_key_sorted _ hnanA hsA) (map_key_sorted _ hnanB hsB)
    rw [hviewA, hviewB]
    refine forall₂_eq_of_map_key_eq _ _ (fun p hp => hnanA p (List.mem_of_mem_take hp))
      (fun p hp => hnanB p (List.mem_of_mem_take hp)) ?_
    rw [List.map_take, List.map_take, hkeys]
  · have hall : ∀ a ∈ processes, ∀ b ∈ processes, a ≠ b →
        (F64.gt a.CPU b.CPU = true ∨ F64.gt b.CPU a.CPU = true) := by
      intro a ha b hb hne
      exact List.Pairwise.forall (fun x y h => h.symm) hd ha hb hne
    have hord := lessByCPU_ordering_of_distinct processes hall
    have hsA := hs.sorted lessByCPU (sortSlice lessByMemory processes)
      (hord.of_mem (fun a ha => hpm.mem_iff.mp ha))
    have hsB := hs.sorted lessByCPU processes hord
    have hAB : sortSlice lessByCPU (sortSlice lessByMemory processes) =
        sortSlice lessByCPU processes := by
      refine eq_of_perm_of_pairwise _ _ ((hpA.trans hpm).trans hpB.symm) hsA hsB ?_
      intro a ha b hb hab hba
      by_contra hne
      have ha' : a ∈ processes := hpm.mem_iff.mp (hpA.mem_iff.mp ha)
      have hb' : b ∈ processes := hpm.mem_iff.mp (hpA.mem_iff.mp hb)
      rcases hall a ha' b hb' hne with h | h
      · simp only [lessByCPU] at hba
        rw [h] at hba
        cases hba
      · simp only [lessByCPU] at hab
        rw [h] at hab
        cases hab
    rw [hviewA, hviewB, hAB]

/-- Witness of `rankedViews_cpu`: two samples with CPU 1 and 2 and resident sizes
10 and 20.  `sortByMemory` swaps them in the shared slice, and the by-CPU view of
the tick is still `sortByCPU` of the snapshot. -/
theorem rankedViews_cpu_witness :
    SortSliceSpec insertionSortSlice ∧
      (sortByMemory insertionSortSlice
          [sample 1 (F64.fin 1 0) 10, sample 2 (F64.fin 2 0) 20]).1.map (fun p => p.PID) = [2, 1] ∧
      (rankedViews insertionSortSlice
          [sample 1 (F64.fin 1 0) 10, sample 2 (F64.fin 2 0) 20]).2 =
        (sortByCPU insertionSortSlice
          [sample 1 (F64.fin 1 0) 10, sample 2 (F64.fin 2 0) 20]).2 :=
  ⟨insertionSortSlice_spec, by decide,
    (rankedViews_cpu insertionSortSlice insertionSortSlice_spec
      [sample 1 (F64.fin 1 0) 10, sample 2 (F64.fin 2 0) 20]).2.2.2.2 (by decide)⟩

/-- C4 (as stated) fails on two samples of equal CPU 5 and resident sizes 1 and
2: `sortByMemory` swaps them in the shared slice, so the by-CPU view of the
tick lists sample 2 first, while `sortByCPU` of the snapshot lists sample 1
first. -/
theorem rankedViews_dependent_counterexample :
    ((rankedViews goSortSlice
        [sample 1 (F64.fin 5 0) 1, sample 2 (F64.fin 5 0) 2]).2.map (fun p => p.PID) = [2, 1]) ∧
      ((sortByCPU goSortSlice
        [sample 1 (F64.fin 5 0) 1, sample 2 (F64.fin 5 0) 2]).2.map (fun p => p.PID) = [1, 2]) := by
  decide

end Monitor
